import Mathlib

/-!
Verification of the Mandelbrot/Julia TSP pipeline (`mandelbrotTSP1.py`,
`julia_set.py`): escape-time field evaluation, point extraction, greedy
tour construction, 2-opt improvement, and attribute assembly.

Machine floats are modelled as exact rationals for the field-ops-only
escape loop and as real numbers where the code takes square roots and
logarithms; the specific IEEE behaviours the code relies on
(`np.nan_to_num`, division by zero) are modelled explicitly.
-/

/-- A complex number with rational components, embedding the per-cell
complex values of the escape loops. -/
structure QC where
  re : ℚ
  im : ℚ
deriving DecidableEq, Repr

namespace QC

/-- Complex addition. -/
def add (a b : QC) : QC := ⟨a.re + b.re, a.im + b.im⟩

/-- Complex multiplication. -/
def mul (a b : QC) : QC := ⟨a.re * b.re - a.im * b.im, a.re * b.im + a.im * b.re⟩

/-- Squared magnitude `|z|^2`.  The code's escape test `np.abs(Z) <= 2`
is equivalent to `normSq Z ≤ 4` since the square root is monotone and
both `|Z|` and `2` are exactly representable comparisons. -/
def normSq (a : QC) : ℚ := a.re * a.re + a.im * a.im

end QC

/-- One iteration of the masked escape loop of `calculate_mandelbrot` /
`calculate_julia_set`: if the cell has not escaped (`|z| <= 2`), update
`z ← z² + c` and record the iteration index `i`; otherwise leave the
cell's state frozen. -/
def escStep (c : QC) (s : QC × ℕ) (i : ℕ) : QC × ℕ :=
  if s.1.normSq ≤ 4 then (QC.add (QC.mul s.1 s.1) c, i) else s

/-- State of one cell after `maxIter` passes of the escape loop,
starting from orbit value `z0` and recorded count `0` (`M` is
initialised with zeros). -/
def escRun (z0 c : QC) (maxIter : ℕ) : QC × ℕ :=
  (List.range maxIter).foldl (escStep c) (z0, 0)

/-- The iteration count the loop records for one cell. -/
def escapeCount (z0 c : QC) (maxIter : ℕ) : ℕ := (escRun z0 c maxIter).2

/-- `np.linspace a b n`: `n` evenly spaced samples from `a` to `b`
inclusive (`[a]` for `n = 1`, `[]` for `n = 0`). -/
def linspace (a b : ℚ) (n : ℕ) : List ℚ :=
  if n ≤ 1 then (List.range n).map (fun _ => a)
  else (List.range n).map (fun k : ℕ => a + (b - a) * k / ((n : ℚ) - 1))

/-- The Mandelbrot iteration grid `M` of `calculate_mandelbrot`: the
orbit starts at `0` and the cell coordinate is the additive constant. -/
def mandelbrotGrid (width height : ℕ) (xmin xmax ymin ymax : ℚ)
    (maxIter : ℕ) : List (List ℕ) :=
  (linspace ymin ymax height).map (fun y =>
    (linspace xmin xmax width).map (fun x =>
      escapeCount ⟨0, 0⟩ ⟨x, y⟩ maxIter))

/-- The Julia iteration grid of `calculate_julia_set`: the orbit starts
at the cell coordinate and `c` is the fixed constant. -/
def juliaGrid (width height : ℕ) (xmin xmax ymin ymax : ℚ) (c : QC)
    (maxIter : ℕ) : List (List ℕ) :=
  (linspace ymin ymax height).map (fun y =>
    (linspace xmin xmax width).map (fun x =>
      escapeCount ⟨x, y⟩ c maxIter))

/-- The Julia constant `c = -0.4 + 0.6i` of the spec's scenario
(components built with `Rat.divInt` so that kernel evaluation works;
`julC_eq` identifies it with the literal `-2/5 + (3/5)i`). -/
def julC : QC := ⟨Rat.divInt (-2) 5, Rat.divInt 3 5⟩

/-!
Kernel-evaluable twins of the rational operations.  `Rat.add`, `Rat.mul`
and friends are irreducible, so concrete runs of the escape loop are
evaluated through `Rat.divInt`-based equivalents, proved equal to the
standard operations.
-/

/-- Evaluable twin of rational multiplication. -/
def qmulX (a b : ℚ) : ℚ := Rat.divInt (a.num * b.num) ((a.den : ℤ) * (b.den : ℤ))

/-- Evaluable twin of rational addition. -/
def qaddX (a b : ℚ) : ℚ :=
  Rat.divInt (a.num * (b.den : ℤ) + b.num * (a.den : ℤ)) ((a.den : ℤ) * (b.den : ℤ))

/-- Evaluable twin of rational subtraction. -/
def qsubX (a b : ℚ) : ℚ :=
  Rat.divInt (a.num * (b.den : ℤ) - b.num * (a.den : ℤ)) ((a.den : ℤ) * (b.den : ℤ))

/-- Evaluable twin of the rational order test. -/
def qleX (a b : ℚ) : Bool := decide (a.num * (b.den : ℤ) ≤ b.num * (a.den : ℤ))

theorem qmulX_eq (a b : ℚ) : qmulX a b = a * b := by
  rw [qmulX]
  conv_rhs => rw [← Rat.num_divInt_den a, ← Rat.num_divInt_den b]
  rw [Rat.divInt_mul_divInt']

theorem qaddX_eq (a b : ℚ) : qaddX a b = a + b := by
  rw [qaddX]
  conv_rhs => rw [← Rat.num_divInt_den a, ← Rat.num_divInt_den b]
  rw [Rat.divInt_add_divInt _ _ (by exact_mod_cast a.den_nz) (by exact_mod_cast b.den_nz)]

theorem qsubX_eq (a b : ℚ) : qsubX a b = a - b := by
  have : a - b = a + (-b) := by ring
  rw [qsubX, this, ← qaddX_eq, qaddX]
  have hnum : (-b).num = -b.num := Rat.neg_num b
  have hden : (-b).den = b.den := Rat.neg_den b
  rw [hnum, hden]
  ring_nf

theorem qleX_eq (a b : ℚ) : qleX a b = true ↔ a ≤ b := by
  rw [qleX, decide_eq_true_eq]
  constructor
  · intro h
    rw [← Rat.num_divInt_den a, ← Rat.num_divInt_den b,
      Rat.divInt_le_divInt (by exact_mod_cast a.pos) (by exact_mod_cast b.pos)]
    exact h
  · intro h
    rw [← Rat.num_divInt_den a, ← Rat.num_divInt_den b,
      Rat.divInt_le_divInt (by exact_mod_cast a.pos) (by exact_mod_cast b.pos)] at h
    exact h

/-- Evaluable twin of `escStep`. -/
def escStepX (c : QC) (s : QC × ℕ) (i : ℕ) : QC × ℕ :=
  if qleX (qaddX (qmulX s.1.re s.1.re) (qmulX s.1.im s.1.im)) 4 then
    (⟨qaddX (qsubX (qmulX s.1.re s.1.re) (qmulX s.1.im s.1.im)) c.re,
      qaddX (qaddX (qmulX s.1.re s.1.im) (qmulX s.1.im s.1.re)) c.im⟩, i)
  else s

/-- Evaluable twin of `escRun`. -/
def escRunX (z0 c : QC) (maxIter : ℕ) : QC × ℕ :=
  (List.range maxIter).foldl (escStepX c) (z0, 0)

theorem escStepX_eq (c : QC) (s : QC × ℕ) (i : ℕ) : escStepX c s i = escStep c s i := by
  rw [escStepX, escStep]
  have hc : (qleX (qaddX (qmulX s.1.re s.1.re) (qmulX s.1.im s.1.im)) 4 = true) =
      (s.1.normSq ≤ 4) := by
    rw [qleX_eq, qmulX_eq, qmulX_eq, qaddX_eq, QC.normSq]
  refine if_congr (by rw [hc]) ?_ rfl
  rw [qmulX_eq, qmulX_eq, qmulX_eq, qmulX_eq, qsubX_eq, qaddX_eq, qaddX_eq, qaddX_eq,
    QC.mul, QC.add]

theorem escRunX_eq (z0 c : QC) (k : ℕ) : escRunX z0 c k = escRun z0 c k := by
  rw [escRunX, escRun]
  generalize (z0, 0) = s
  induction (List.range k) generalizing s with
  | nil => rfl
  | cons a l ih => rw [List.foldl_cons, List.foldl_cons, escStepX_eq]; exact ih _

theorem julC_eq : julC = ⟨-2/5, 3/5⟩ := by
  rw [julC, QC.mk.injEq]
  constructor <;> rw [Rat.divInt_eq_div] <;> norm_num

theorem escRun_succ (z0 c : QC) (k : ℕ) :
    escRun z0 c (k + 1) = escStep c (escRun z0 c k) k := by
  simp [escRun, List.range_succ]

theorem escapeCount_zero_or_lt (z0 c : QC) (k : ℕ) :
    escapeCount z0 c k = 0 ∨ escapeCount z0 c k < k := by
  induction k with
  | zero => exact Or.inl rfl
  | succ n ih =>
    rw [escapeCount, escRun_succ, escStep]
    split
    · exact Or.inr (Nat.lt_succ_self n)
    · rcases ih with h | h
      · exact Or.inl h
      · exact Or.inr (Nat.lt_succ_of_lt h)

/-- The recorded count never reaches the iteration budget: it is at most
`maxIter - 1` (and `0` when the budget is `0`). -/
theorem escapeCount_le_pred (z0 c : QC) (k : ℕ) :
    escapeCount z0 c k ≤ k - 1 := by
  rcases escapeCount_zero_or_lt z0 c k with h | h
  · simp [h]
  · exact Nat.le_sub_one_of_lt h

/-- A cell that is still unescaped after the whole loop (its orbit never
exceeded magnitude 2) records exactly `maxIter - 1`, not `maxIter`. -/
theorem escapeCount_of_never_escaped (z0 c : QC) (k : ℕ)
    (h : (escRun z0 c (k + 1)).1.normSq ≤ 4) :
    escapeCount z0 c (k + 1) = k := by
  rw [escapeCount, escRun_succ, escStep]
  rw [escRun_succ] at h
  by_cases hm : (escRun z0 c k).1.normSq ≤ 4
  · simp [hm]
  · rw [escStep, if_neg hm] at h
    exact absurd h hm

/-- Once a cell has escaped, its state is frozen for all later passes. -/
theorem escRun_frozen (z0 c : QC) (n : ℕ)
    (h : ¬ (escRun z0 c n).1.normSq ≤ 4) :
    ∀ m, escRun z0 c (n + m) = escRun z0 c n := by
  intro m
  induction m with
  | zero => rfl
  | succ p ih =>
    have : n + (p + 1) = (n + p) + 1 := rfl
    rw [this, escRun_succ, ih, escStep, if_neg h]

set_option maxRecDepth 10000 in
theorem escRun_julia_far_sample : escapeCount ⟨3, 3⟩ julC 50 = 0 := by
  rw [escapeCount, ← escRunX_eq]
  decide

/-- C1, counterexample.  The claim "a cell whose orbit never exceeds
magnitude 2 within `max_iter` iterations records exactly `max_iter`" is
false at `z0 = 0`, `c = 0`, `max_iter = 2`: the orbit stays at `0`
(never exceeding magnitude 2) yet the loop records `1 = max_iter - 1`;
and the Julia sample `z = 0`, `c = -0.4+0.6i`, `max_iter = 50` cannot
report `50`, since the recorded index is always at most `49`. -/
theorem C1_escape_record_counterexample :
    (escRun ⟨0, 0⟩ ⟨0, 0⟩ 2).1.normSq ≤ 4 ∧
    escapeCount ⟨0, 0⟩ ⟨0, 0⟩ 2 = 1 ∧
    escapeCount ⟨0, 0⟩ ⟨0, 0⟩ 2 ≠ 2 ∧
    escapeCount ⟨0, 0⟩ (⟨-2/5, 3/5⟩ : QC) 50 ≠ 50 := by
  have h1 : (escRun ⟨0, 0⟩ ⟨0, 0⟩ 2).1 = ⟨0, 0⟩ := by
    rw [← escRunX_eq]; decide
  have h2 : escapeCount ⟨0, 0⟩ ⟨0, 0⟩ 2 = 1 := by
    rw [escapeCount, ← escRunX_eq]; decide
  refine ⟨?_, h2, by rw [h2]; decide, ?_⟩
  · rw [h1, QC.normSq]; norm_num
  · have h := escapeCount_le_pred ⟨0, 0⟩ (⟨-2/5, 3/5⟩ : QC) 50
    omega

/-!
A verified interval-arithmetic certificate used to evaluate the exact
z = 0 Julia orbit: dyadic intervals with outward rounding keep the
numbers small while the exact orbit's denominators explode.
-/

/-- `2 ^ 64`, the rounding granularity denominator. -/
def twoP64 : ℤ := 18446744073709551616

/-- Round a rational down onto the `2 ^ -64` grid. -/
def rdown (x : ℚ) : ℚ := Rat.divInt (Int.ediv (x.num * twoP64) (x.den : ℤ)) twoP64

/-- Evaluable twin of rational negation. -/
def qnegX (a : ℚ) : ℚ := Rat.divInt (-a.num) (a.den : ℤ)

/-- Round a rational up onto the `2 ^ -64` grid. -/
def rup (x : ℚ) : ℚ := qnegX (rdown (qnegX x))

theorem qnegX_eq (a : ℚ) : qnegX a = -a := by
  rw [qnegX, ← Rat.neg_divInt, Rat.num_divInt_den]

theorem twoP64_pos : (0 : ℤ) < twoP64 := by rw [twoP64]; omega

theorem rdown_le (x : ℚ) : rdown x ≤ x := by
  rw [rdown, ← Rat.num_divInt_den x,
    Rat.divInt_le_divInt twoP64_pos (by exact_mod_cast x.pos), Rat.num_divInt_den]
  calc Int.ediv (x.num * twoP64) (x.den : ℤ) * (x.den : ℤ) ≤ x.num * twoP64 :=
        Int.ediv_mul_le _ (by exact_mod_cast x.den_nz)
    _ = x.num * twoP64 := rfl

theorem le_rup (x : ℚ) : x ≤ rup x := by
  have h := rdown_le (qnegX x)
  rw [qnegX_eq] at h
  rw [rup, qnegX_eq, qnegX_eq]
  linarith

/-- A rational interval. -/
structure Iv where
  lo : ℚ
  hi : ℚ
deriving DecidableEq, Repr

/-- Membership in an interval. -/
def ivMem (x : ℚ) (v : Iv) : Prop := v.lo ≤ x ∧ x ≤ v.hi

/-- Evaluable twin of `min`. -/
def qminX (a b : ℚ) : ℚ := if qleX a b then a else b

/-- Evaluable twin of `max`. -/
def qmaxX (a b : ℚ) : ℚ := if qleX a b then b else a

theorem qminX_eq (a b : ℚ) : qminX a b = min a b := by
  rw [qminX, min_def]
  by_cases h : a ≤ b
  · rw [if_pos ((qleX_eq a b).mpr h), if_pos h]
  · rw [if_neg (fun hc => h ((qleX_eq a b).mp hc)), if_neg h]

theorem qmaxX_eq (a b : ℚ) : qmaxX a b = max a b := by
  rw [qmaxX, max_def]
  by_cases h : a ≤ b
  · rw [if_pos ((qleX_eq a b).mpr h), if_pos h]
  · rw [if_neg (fun hc => h ((qleX_eq a b).mp hc)), if_neg h]

/-- Interval addition with outward rounding. -/
def ivAdd (a b : Iv) : Iv := ⟨rdown (qaddX a.lo b.lo), rup (qaddX a.hi b.hi)⟩

/-- Interval subtraction with outward rounding. -/
def ivSub (a b : Iv) : Iv := ⟨rdown (qsubX a.lo b.hi), rup (qsubX a.hi b.lo)⟩

/-- Interval multiplication with outward rounding. -/
def ivMul (a b : Iv) : Iv :=
  ⟨rdown (qminX (qminX (qmulX a.lo b.lo) (qmulX a.lo b.hi))
      (qminX (qmulX a.hi b.lo) (qmulX a.hi b.hi))),
    rup (qmaxX (qmaxX (qmulX a.lo b.lo) (qmulX a.lo b.hi))
      (qmaxX (qmulX a.hi b.lo) (qmulX a.hi b.hi)))⟩

theorem ivAdd_mem {x y : ℚ} {a b : Iv} (hx : ivMem x a) (hy : ivMem y b) :
    ivMem (x + y) (ivAdd a b) := by
  refine ⟨le_trans (rdown_le _) ?_, le_trans ?_ (le_rup _)⟩ <;> rw [qaddX_eq] <;>
    [exact add_le_add hx.1 hy.1; exact add_le_add hx.2 hy.2]

theorem ivSub_mem {x y : ℚ} {a b : Iv} (hx : ivMem x a) (hy : ivMem y b) :
    ivMem (x - y) (ivSub a b) := by
  refine ⟨le_trans (rdown_le _) ?_, le_trans ?_ (le_rup _)⟩ <;> rw [qsubX_eq] <;>
    [exact sub_le_sub hx.1 hy.2; exact sub_le_sub hx.2 hy.1]

theorem mul_bounds_lower {x y al ah bl bh : ℚ} (h1 : al ≤ x) (h2 : x ≤ ah)
    (h3 : bl ≤ y) (h4 : y ≤ bh) :
    min (min (al * bl) (al * bh)) (min (ah * bl) (ah * bh)) ≤ x * y := by
  rcases le_total 0 y with hy | hy
  · have hxy : al * y ≤ x * y := mul_le_mul_of_nonneg_right h1 hy
    rcases le_total 0 al with hl | hl
    · have h5 : al * bl ≤ al * y := mul_le_mul_of_nonneg_left h3 hl
      exact le_trans (le_trans (min_le_left _ _) (min_le_left _ _)) (le_trans h5 hxy)
    · have h5 : al * bh ≤ al * y := mul_le_mul_of_nonpos_left h4 hl
      exact le_trans (le_trans (min_le_left _ _) (min_le_right _ _)) (le_trans h5 hxy)
  · have hxy : ah * y ≤ x * y := mul_le_mul_of_nonpos_right h2 hy
    rcases le_total 0 ah with hl | hl
    · have h5 : ah * bl ≤ ah * y := mul_le_mul_of_nonneg_left h3 hl
      exact le_trans (le_trans (min_le_right _ _) (min_le_left _ _)) (le_trans h5 hxy)
    · have h5 : ah * bh ≤ ah * y := mul_le_mul_of_nonpos_left h4 hl
      exact le_trans (le_trans (min_le_right _ _) (min_le_right _ _)) (le_trans h5 hxy)

theorem mul_bounds_upper {x y al ah bl bh : ℚ} (h1 : al ≤ x) (h2 : x ≤ ah)
    (h3 : bl ≤ y) (h4 : y ≤ bh) :
    x * y ≤ max (max (al * bl) (al * bh)) (max (ah * bl) (ah * bh)) := by
  rcases le_total 0 y with hy | hy
  · have hxy : x * y ≤ ah * y := mul_le_mul_of_nonneg_right h2 hy
    rcases le_total 0 ah with hl | hl
    · have h5 : ah * y ≤ ah * bh := mul_le_mul_of_nonneg_left h4 hl
      exact le_trans (le_trans hxy h5) (le_trans (le_max_right _ _) (le_max_right _ _))
    · have h5 : ah * y ≤ ah * bl := mul_le_mul_of_nonpos_left h3 hl
      exact le_trans (le_trans hxy h5) (le_trans (le_max_left _ _) (le_max_right _ _))
  · have hxy : x * y ≤ al * y := mul_le_mul_of_nonpos_right h1 hy
    rcases le_total 0 al with hl | hl
    · have h5 : al * y ≤ al * bh := mul_le_mul_of_nonneg_left h4 hl
      exact le_trans (le_trans hxy h5) (le_trans (le_max_right _ _) (le_max_left _ _))
    · have h5 : al * y ≤ al * bl := mul_le_mul_of_nonpos_left h3 hl
      exact le_trans (le_trans hxy h5) (le_trans (le_max_left _ _) (le_max_left _ _))

theorem ivMul_mem {x y : ℚ} {a b : Iv} (hx : ivMem x a) (hy : ivMem y b) :
    ivMem (x * y) (ivMul a b) := by
  constructor
  · refine le_trans (rdown_le _) ?_
    rw [qminX_eq, qminX_eq, qminX_eq, qmulX_eq, qmulX_eq, qmulX_eq, qmulX_eq]
    exact mul_bounds_lower hx.1 hx.2 hy.1 hy.2
  · refine le_trans ?_ (le_rup _)
    rw [qmaxX_eq, qmaxX_eq, qmaxX_eq, qmulX_eq, qmulX_eq, qmulX_eq, qmulX_eq]
    exact mul_bounds_upper hx.1 hx.2 hy.1 hy.2

/-- A box (rectangle) in the complex plane: an interval per component. -/
structure IvC where
  re : Iv
  im : Iv
deriving DecidableEq, Repr

/-- Membership of a complex value in a box. -/
def ivcMem (z : QC) (B : IvC) : Prop := ivMem z.re B.re ∧ ivMem z.im B.im

/-- Box image of the masked update `z ← z² + c`, mirroring `QC.mul` /
`QC.add` componentwise. -/
def boxStep (c : QC) (B : IvC) : IvC :=
  ⟨ivAdd (ivSub (ivMul B.re B.re) (ivMul B.im B.im)) ⟨c.re, c.re⟩,
    ivAdd (ivAdd (ivMul B.re B.im) (ivMul B.im B.re)) ⟨c.im, c.im⟩⟩

/-- Interval enclosure of `normSq` over a box. -/
def nsqIv (B : IvC) : Iv := ivAdd (ivMul B.re B.re) (ivMul B.im B.im)

/-- Box enclosure of the orbit after `n` unmasked updates. -/
def boxRun (z0 c : QC) : ℕ → IvC
  | 0 => ⟨⟨z0.re, z0.re⟩, ⟨z0.im, z0.im⟩⟩
  | n + 1 => boxStep c (boxRun z0 c n)

theorem ivMem_point (x : ℚ) : ivMem x ⟨x, x⟩ := ⟨le_refl x, le_refl x⟩

theorem boxStep_mem {z : QC} {B : IvC} (c : QC) (h : ivcMem z B) :
    ivcMem (QC.add (QC.mul z z) c) (boxStep c B) := by
  refine ⟨?_, ?_⟩
  · exact ivAdd_mem (ivSub_mem (ivMul_mem h.1 h.1) (ivMul_mem h.2 h.2)) (ivMem_point c.re)
  · exact ivAdd_mem (ivAdd_mem (ivMul_mem h.1 h.2) (ivMul_mem h.2 h.1)) (ivMem_point c.im)

theorem nsqIv_mem {z : QC} {B : IvC} (h : ivcMem z B) : ivMem z.normSq (nsqIv B) :=
  ivAdd_mem (ivMul_mem h.1 h.1) (ivMul_mem h.2 h.2)

/-- While every box so far certifies `normSq ≤ 4`, the exact orbit stays
inside the boxes and the recorded count tracks the pass index. -/
theorem escRun_boxed (z0 c : QC) :
    ∀ n, (∀ k, k < n → (nsqIv (boxRun z0 c k)).hi ≤ 4) →
      ivcMem (escRun z0 c n).1 (boxRun z0 c n) ∧ (escRun z0 c n).2 = n - 1 := by
  intro n
  induction n with
  | zero => exact fun _ => ⟨⟨ivMem_point z0.re, ivMem_point z0.im⟩, rfl⟩
  | succ m ih =>
    intro h
    have hm := ih (fun k hk => h k (Nat.lt_succ_of_lt hk))
    have hmask : (escRun z0 c m).1.normSq ≤ 4 :=
      le_trans (nsqIv_mem hm.1).2 (h m (Nat.lt_succ_self m))
    rw [escRun_succ, escStep, if_pos hmask]
    exact ⟨boxStep_mem c hm.1, rfl⟩

/-- The decidable certificate: the first 26 boxes of the `z = 0` Julia
orbit certify `normSq ≤ 4`, and the 26th certifies `normSq > 4`. -/
def julCert : Bool :=
  ((List.range 26).all fun k => qleX (nsqIv (boxRun ⟨0, 0⟩ julC k)).hi 4) &&
    !(qleX (nsqIv (boxRun ⟨0, 0⟩ julC 26)).lo 4)

set_option maxRecDepth 40000 in
theorem julCert_true : julCert = true := by decide

/-- The exact `z = 0` Julia orbit for `c = -0.4 + 0.6i` escapes during
pass 26, so with `max_iter = 50` the loop records `25`. -/
theorem julia_zero_sample : escapeCount ⟨0, 0⟩ julC 50 = 25 := by
  have hc := julCert_true
  rw [julCert, Bool.and_eq_true, List.all_eq_true, Bool.not_eq_true'] at hc
  have hall : ∀ k, k < 26 → (nsqIv (boxRun ⟨0, 0⟩ julC k)).hi ≤ 4 := by
    intro k hk
    exact (qleX_eq _ _).mp (hc.1 k (List.mem_range.mpr hk))
  have hbox := escRun_boxed ⟨0, 0⟩ julC 26 hall
  have hunmasked : ¬ (escRun ⟨0, 0⟩ julC 26).1.normSq ≤ 4 := by
    intro hle
    have hlo := (nsqIv_mem hbox.1).1
    have : (nsqIv (boxRun ⟨0, 0⟩ julC 26)).lo ≤ 4 := le_trans hlo hle
    rw [← qleX_eq] at this
    rw [hc.2] at this
    exact Bool.false_ne_true this
  have hfrozen := escRun_frozen ⟨0, 0⟩ julC 26 hunmasked 24
  rw [escapeCount, show (50 : ℕ) = 26 + 24 from rfl, hfrozen]
  exact hbox.2

/-- C1, amended.  For every cell the recorded escape count lies in
`[0, max_iter - 1]` (hence in `[0, max_iter]` but never equal to
`max_iter` for a positive budget); a cell whose orbit never exceeds
magnitude 2 records exactly `max_iter - 1`; and in the spec's scenario
(`max_iter = 50`, `c = -0.4 + 0.6i`) the Julia sample `z = 0` reports
iteration count `25` (its orbit escapes during pass 26) while the
far-outside sample `z = 3 + 3i` reports `0`. -/
theorem C1_escape_record_amended :
    (∀ (z0 c : QC) (k : ℕ), escapeCount z0 c k ≤ k - 1) ∧
    (∀ (z0 c : QC) (k : ℕ), (escRun z0 c (k + 1)).1.normSq ≤ 4 →
      escapeCount z0 c (k + 1) = k) ∧
    escapeCount ⟨0, 0⟩ (⟨-2/5, 3/5⟩ : QC) 50 = 25 ∧
    escapeCount ⟨3, 3⟩ (⟨-2/5, 3/5⟩ : QC) 50 = 0 := by
  refine ⟨escapeCount_le_pred, escapeCount_of_never_escaped, ?_, ?_⟩
  · rw [← julC_eq]; exact julia_zero_sample
  · rw [← julC_eq]; exact escRun_julia_far_sample

/-- Witness for `C1_escape_record_amended`: its never-escaped clause at
the concrete cell `z0 = 0`, `c = 0`, `max_iter = 2`. -/
theorem C1_escape_record_amended_witness : escapeCount ⟨0, 0⟩ ⟨0, 0⟩ 2 = 1 := by
  refine C1_escape_record_amended.2.1 ⟨0, 0⟩ ⟨0, 0⟩ 1 ?_
  have h : (escRun ⟨0, 0⟩ ⟨0, 0⟩ 2).1 = ⟨0, 0⟩ := by rw [← escRunX_eq]; decide
  rw [h, QC.normSq]
  norm_num

/-!
Model of the IEEE-double behaviours the smoothing step of
`calculate_julia_set` relies on: `np.log`'s special values and
`np.nan_to_num`'s replacements.  Finite values are exact reals.
-/

/-- An IEEE double as seen by the smoothing computation: a finite real
or one of the special values. -/
inductive FVal where
  | fin (x : ℝ)
  | pinf
  | ninf
  | nan

/-- The largest finite double `(2^53 - 1) * 2^971`, which
`np.nan_to_num` substitutes for `+inf`. -/
noncomputable def maxFloat : ℝ := (2 ^ 53 - 1) * 2 ^ 971

/-- `np.log` on the double model: `log 0 = -inf`, `log x = nan` for
`x < 0`, `log (+inf) = +inf`, `log (-inf) = log nan = nan`. -/
noncomputable def flog : FVal → FVal
  | .fin x => if x < 0 then .nan else if x = 0 then .ninf else .fin (Real.log x)
  | .pinf => .pinf
  | .ninf => .nan
  | .nan => .nan

/-- Division of a double by a positive finite real constant. -/
noncomputable def fdivPos (a : FVal) (c : ℝ) : FVal :=
  match a with
  | .fin x => .fin (x / c)
  | .pinf => .pinf
  | .ninf => .ninf
  | .nan => .nan

/-- `m - a` for finite `m`. -/
noncomputable def fsubFin (m : ℝ) (a : FVal) : FVal :=
  match a with
  | .fin x => .fin (m - x)
  | .pinf => .ninf
  | .ninf => .pinf
  | .nan => .nan

/-- `np.nan_to_num` with its defaults: `nan ↦ 0`,
`±inf ↦ ±maxFloat`, finite values unchanged. -/
noncomputable def nanToNum : FVal → ℝ
  | .fin x => x
  | .pinf => maxFloat
  | .ninf => -maxFloat
  | .nan => 0

/-- `np.abs` of a cell value: the true complex magnitude. -/
noncomputable def qcAbs (z : QC) : ℝ := Real.sqrt ((z.normSq : ℚ) : ℝ)

/-- The smoothing expression of `calculate_julia_set` before
`np.nan_to_num`: `M + 1 - log(log(|Z| + 1)) / log 2`. -/
noncomputable def smoothRaw (m : ℕ) (z : QC) : FVal :=
  fsubFin ((m : ℝ) + 1) (fdivPos (flog (flog (.fin (qcAbs z + 1)))) (Real.log 2))

/-- A cell's smoothed value in the returned record, after
`np.nan_to_num`. -/
noncomputable def smoothCell (m : ℕ) (z : QC) : ℝ := nanToNum (smoothRaw m z)

/-- The smoothing formula as the spec words it:
`iteration + 1 - log(log |z|) / log 2` (no `+ 1` inside the inner
logarithm).  Used only to compare the spec against the code. -/
noncomputable def specSmooth (m : ℕ) (z : QC) : ℝ :=
  (m : ℝ) + 1 - Real.log (Real.log (qcAbs z)) / Real.log 2

theorem QC.normSq_nonneg (z : QC) : 0 ≤ z.normSq := by
  rw [QC.normSq]
  exact add_nonneg (mul_self_nonneg _) (mul_self_nonneg _)

theorem QC.normSq_eq_zero {z : QC} : z.normSq = 0 ↔ z = ⟨0, 0⟩ := by
  rw [QC.normSq]
  constructor
  · intro h
    have h1 : z.re * z.re = 0 ∧ z.im * z.im = 0 := by
      constructor <;> nlinarith [mul_self_nonneg z.re, mul_self_nonneg z.im]
    have hre : z.re = 0 := by have := h1.1; nlinarith
    have him : z.im = 0 := by have := h1.2; nlinarith
    cases z
    simp_all
  · intro h
    rw [h]
    norm_num

theorem qcAbs_pos {z : QC} (h : z ≠ ⟨0, 0⟩) : 0 < qcAbs z := by
  rw [qcAbs]
  apply Real.sqrt_pos.mpr
  have hnz : z.normSq ≠ 0 := fun hc => h (QC.normSq_eq_zero.mp hc)
  have hpos : 0 < z.normSq := lt_of_le_of_ne (QC.normSq_nonneg z) (Ne.symm hnz)
  exact_mod_cast hpos

theorem qcAbs_zero : qcAbs ⟨0, 0⟩ = 0 := by
  rw [qcAbs]
  have : (⟨0, 0⟩ : QC).normSq = 0 := QC.normSq_eq_zero.mpr rfl
  rw [this]
  norm_num

/-- The smoothing on a non-zero final value is the finite logarithmic
correction, with the `+ 1` inside the inner logarithm. -/
theorem smoothCell_of_ne_zero (m : ℕ) (z : QC) (h : z ≠ ⟨0, 0⟩) :
    smoothCell m z = (m : ℝ) + 1 - Real.log (Real.log (qcAbs z + 1)) / Real.log 2 := by
  have habs : 0 < qcAbs z := qcAbs_pos h
  have h1 : (1 : ℝ) < qcAbs z + 1 := by linarith
  have hlog1 : 0 < Real.log (qcAbs z + 1) := Real.log_pos h1
  rw [smoothCell, smoothRaw, flog, if_neg (by linarith), if_neg (by linarith), flog,
    if_neg (by linarith), if_neg (by linarith), fdivPos, fsubFin, nanToNum]

/-- On a zero final value (`log(log 1) = log 0 = -inf`) the smoothing
yields `+inf`, which `np.nan_to_num` replaces with `maxFloat` — not
with the cell's plain iteration count. -/
theorem smoothCell_of_zero (m : ℕ) : smoothCell m ⟨0, 0⟩ = maxFloat := by
  rw [smoothCell, smoothRaw, qcAbs_zero, flog, if_neg (by norm_num), if_neg (by norm_num)]
  rw [show Real.log (0 + 1) = 0 by norm_num, flog, if_neg (by norm_num), if_pos rfl,
    fdivPos, fsubFin, nanToNum]

/-- C6, counterexample.  At the cell `z0 = 0`, `c = 0`, `max_iter = 3`
the final orbit value is `0` and the recorded count is `2`; the
smoothing produces `+inf`, and `np.nan_to_num` replaces it with the
largest finite double — not with the plain iteration count.  Moreover
the code computes `log(log(|z| + 1))`, not the claimed `log(log |z|)`:
at a cell with final `|z| = 3` the two formulas disagree. -/
theorem C6_smoothing_counterexample :
    smoothCell (escapeCount ⟨0, 0⟩ ⟨0, 0⟩ 3) ((escRun ⟨0, 0⟩ ⟨0, 0⟩ 3).1) = maxFloat ∧
    maxFloat ≠ ((escapeCount ⟨0, 0⟩ ⟨0, 0⟩ 3 : ℕ) : ℝ) ∧
    smoothCell 1 ⟨3, 0⟩ ≠ specSmooth 1 ⟨3, 0⟩ := by
  have hz : (escRun ⟨0, 0⟩ ⟨0, 0⟩ 3).1 = ⟨0, 0⟩ := by rw [← escRunX_eq]; decide
  have hm : escapeCount ⟨0, 0⟩ ⟨0, 0⟩ 3 = 2 := by rw [escapeCount, ← escRunX_eq]; decide
  have habs3 : qcAbs ⟨3, 0⟩ = 3 := by
    rw [qcAbs, show (⟨3, 0⟩ : QC).normSq = 9 by rw [QC.normSq]; norm_num]
    rw [show (((9 : ℚ) : ℝ)) = 3 ^ 2 by push_cast; norm_num]
    exact Real.sqrt_sq (by norm_num)
  have hne : (⟨3, 0⟩ : QC) ≠ ⟨0, 0⟩ := by
    intro hc
    injection hc with h1 _
    exact absurd h1 (by norm_num)
  refine ⟨by rw [hz]; exact smoothCell_of_zero _, ?_, ?_⟩
  · rw [hm, maxFloat]
    norm_num
  · rw [smoothCell_of_ne_zero 1 ⟨3, 0⟩ hne, specSmooth, habs3]
    have hlog2 : (0 : ℝ) < Real.log 2 := Real.log_pos (by norm_num)
    have h34 : Real.log (Real.log 3) < Real.log (Real.log (3 + 1)) := by
      apply Real.log_lt_log (Real.log_pos (by norm_num))
      exact Real.log_lt_log (by norm_num) (by norm_num)
    intro hc
    have h2 : Real.log (Real.log (3 + 1)) / Real.log 2 =
        Real.log (Real.log 3) / Real.log 2 := by linarith
    have h3 : Real.log (Real.log (3 + 1)) = Real.log (Real.log 3) := by
      field_simp at h2
      linarith
    linarith

/-- C6, amended.  Each cell's smoothed value is computed as
`iteration + 1 - log(log(|z| + 1)) / log 2` from the final orbit value
`z` (note the `+ 1` inside the inner logarithm); the only non-finite
case is `z = 0`, where the `+inf` result is replaced by
`np.nan_to_num` with the largest finite double (not the plain iteration
count); after the replacement every returned value is a (finite) real
number by construction. -/
theorem C6_smoothing_amended :
    (∀ (m : ℕ) (z : QC), z ≠ ⟨0, 0⟩ →
      smoothCell m z = (m : ℝ) + 1 - Real.log (Real.log (qcAbs z + 1)) / Real.log 2) ∧
    (∀ m : ℕ, smoothCell m ⟨0, 0⟩ = maxFloat) :=
  ⟨smoothCell_of_ne_zero, smoothCell_of_zero⟩

/-- Witness for `C6_smoothing_amended` at `m = 0`, `z = 1`. -/
theorem C6_smoothing_amended_witness :
    smoothCell 0 ⟨1, 0⟩ =
      ((0 : ℕ) : ℝ) + 1 - Real.log (Real.log (qcAbs ⟨1, 0⟩ + 1)) / Real.log 2 :=
  C6_smoothing_amended.1 0 ⟨1, 0⟩ (fun hc => by
    injection hc with h1 _
    exact absurd h1 (by norm_num))

/-!
The TSP stage: Euclidean distance, tour lengths, the 2-opt improver and
the nearest-neighbor constructor of `mandelbrotTSP1.py`.
-/

/-- Euclidean distance between two plane points (`np.linalg.norm` of the
difference). -/
noncomputable def dist2 (p q : ℝ × ℝ) : ℝ :=
  Real.sqrt ((p.1 - q.1) ^ 2 + (p.2 - q.2) ^ 2)

/-- Default point used by the list-indexing total functions; never read
on in-range accesses. -/
noncomputable def pt0 : ℝ × ℝ := (0, 0)

theorem dist2_symm (p q : ℝ × ℝ) : dist2 p q = dist2 q p := by
  rw [dist2, dist2]
  ring_nf

theorem dist2_self (p : ℝ × ℝ) : dist2 p p = 0 := by
  rw [dist2]
  simp

/-! Generic list access lemmas used by the tour accounting. -/

theorem listGetD_drop {α : Type} (l : List α) (d : α) (n m : ℕ) :
    (l.drop n).getD m d = l.getD (n + m) d := by
  rw [List.getD_eq_getElem?_getD, List.getElem?_drop, ← List.getD_eq_getElem?_getD]

theorem listGetD_take {α : Type} (l : List α) (d : α) (i m : ℕ) (h : m < i) :
    (l.take i).getD m d = l.getD m d := by
  rw [List.getD_eq_getElem?_getD, List.getElem?_take, if_pos h, ← List.getD_eq_getElem?_getD]

theorem listHeadD_eq_getD {α : Type} (l : List α) (d : α) : l.headD d = l.getD 0 d := by
  cases l <;> rfl

theorem listGetLastD_eq_getD {α : Type} (l : List α) (d : α) :
    l.getLastD d = l.getD (l.length - 1) d := by
  induction l with
  | nil => rfl
  | cons a t ih =>
    cases t with
    | nil => rfl
    | cons b t' =>
      rw [List.getLastD_eq_getLast?, List.getLast?_cons_cons, ← List.getLastD_eq_getLast?, ih]
      conv_rhs => rw [show (a :: b :: t').length - 1 = ((b :: t').length - 1) + 1 from by
        simp only [List.length_cons]; omega]
      rw [List.getD_cons_succ]

theorem listHeadD_append {α : Type} (xs ys : List α) (d : α) (hx : xs ≠ []) :
    (xs ++ ys).headD d = xs.headD d := by
  cases xs with
  | nil => exact absurd rfl hx
  | cons a t => rfl

theorem listGetLastD_append {α : Type} (xs ys : List α) (d : α) (hy : ys ≠ []) :
    (xs ++ ys).getLastD d = ys.getLastD d := by
  rw [List.getLastD_eq_getLast?, List.getLastD_eq_getLast?,
    List.getLast?_append_of_ne_nil _ hy]

theorem listHeadD_take {α : Type} (l : List α) (d : α) (i : ℕ) (hi : 1 ≤ i) :
    (l.take i).headD d = l.headD d := by
  cases l with
  | nil => simp
  | cons a t =>
    cases i with
    | zero => omega
    | succ m => rfl

theorem listHeadD_reverse {α : Type} (l : List α) (d : α) :
    l.reverse.headD d = l.getLastD d := by
  induction l with
  | nil => rfl
  | cons a t ih =>
    rw [List.reverse_cons]
    cases h : t.reverse with
    | nil =>
      have : t = [] := by simpa using congrArg List.reverse h
      subst this
      rfl
    | cons b u =>
      rw [listHeadD_append _ _ _ (by simp [h]), ← h, ih]
      have : t ≠ [] := by
        intro hc
        subst hc
        simp at h
      cases t with
      | nil => exact absurd rfl this
      | cons c v => rfl

theorem listGetLastD_reverse {α : Type} (l : List α) (d : α) :
    l.reverse.getLastD d = l.headD d := by
  have := listHeadD_reverse l.reverse d
  rw [List.reverse_reverse] at this
  rw [← this]

theorem listGetD_map_lt {α β : Type} (f : α → β) (l : List α) (k : ℕ) (d : β) (d' : α)
    (h : k < l.length) : (l.map f).getD k d = f (l.getD k d') := by
  induction l generalizing k with
  | nil => simp at h
  | cons a t ih =>
    cases k with
    | zero => rfl
    | succ m =>
      simp only [List.length_cons, Nat.succ_lt_succ_iff] at h
      simpa using ih m h

/-- Open-path length of a list of points: sum of Euclidean distances
between consecutive points; first and last are not connected. -/
noncomputable def openLenP : List (ℝ × ℝ) → ℝ
  | [] => 0
  | [_] => 0
  | p :: q :: rest => dist2 p q + openLenP (q :: rest)

/-- Closed-walk length of a list of points: the open length plus the
edge from the last point back to the first (zero for at most one
point). -/
noncomputable def cycLenP (l : List (ℝ × ℝ)) : ℝ := openLenP (l ++ [l.headD pt0])

theorem openLenP_snoc (xs : List (ℝ × ℝ)) (a : ℝ × ℝ) (hx : xs ≠ []) :
    openLenP (xs ++ [a]) = openLenP xs + dist2 (xs.getLastD pt0) a := by
  induction xs with
  | nil => exact absurd rfl hx
  | cons x t ih =>
    cases t with
    | nil =>
      rw [show ([x] ++ [a]) = [x, a] from rfl, openLenP, openLenP, openLenP]
      rw [show ([x] : List (ℝ × ℝ)).getLastD pt0 = x from rfl]
      ring
    | cons y t' =>
      rw [show ((x :: y :: t') ++ [a]) = x :: ((y :: t') ++ [a]) from rfl]
      rw [show ((y :: t') ++ [a]) = y :: (t' ++ [a]) from rfl]
      rw [openLenP]
      rw [show (y :: (t' ++ [a])) = ((y :: t') ++ [a]) from rfl]
      rw [ih (by simp), openLenP]
      rw [listGetLastD_eq_getD, listGetLastD_eq_getD]
      rw [show (x :: y :: t').length - 1 = ((y :: t').length - 1) + 1 from by
        simp only [List.length_cons]; omega]
      rw [List.getD_cons_succ]
      ring

theorem openLenP_append (xs ys : List (ℝ × ℝ)) (hx : xs ≠ []) (hy : ys ≠ []) :
    openLenP (xs ++ ys) =
      openLenP xs + dist2 (xs.getLastD pt0) (ys.headD pt0) + openLenP ys := by
  induction xs with
  | nil => exact absurd rfl hx
  | cons x t ih =>
    cases ys with
    | nil => exact absurd rfl hy
    | cons b u =>
      cases t with
      | nil =>
        rw [show ([x] ++ b :: u) = x :: b :: u from rfl, openLenP, openLenP]
        rw [show ([x] : List (ℝ × ℝ)).getLastD pt0 = x from rfl,
          show (b :: u).headD pt0 = b from rfl]
        ring
      | cons y t' =>
        rw [show ((x :: y :: t') ++ b :: u) = x :: ((y :: t') ++ b :: u) from rfl]
        rw [show (x :: ((y :: t') ++ b :: u)) = x :: (y :: ((t' ++ b :: u))) from rfl]
        rw [openLenP]
        rw [show (y :: (t' ++ b :: u)) = ((y :: t') ++ b :: u) from rfl]
        rw [ih (by simp), openLenP]
        rw [listGetLastD_eq_getD, listGetLastD_eq_getD]
        rw [show (x :: y :: t').length - 1 = ((y :: t').length - 1) + 1 from by
          simp only [List.length_cons]; omega]
        rw [List.getD_cons_succ]
        ring

theorem openLenP_reverse (l : List (ℝ × ℝ)) : openLenP l.reverse = openLenP l := by
  induction l with
  | nil => rfl
  | cons x t ih =>
    cases t with
    | nil => rfl
    | cons y t' =>
      rw [List.reverse_cons, openLenP_snoc _ _ (by simp), ih,
        listGetLastD_reverse, openLenP]
      rw [show (y :: t').headD pt0 = y from rfl, dist2_symm]
      ring

theorem openLenP_three (A s B : List (ℝ × ℝ)) (hA : A ≠ []) (hs : s ≠ []) (hB : B ≠ []) :
    openLenP (A ++ s ++ B) =
      openLenP A + dist2 (A.getLastD pt0) (s.headD pt0) + openLenP s +
        dist2 (s.getLastD pt0) (B.headD pt0) + openLenP B := by
  rw [show A ++ s ++ B = A ++ (s ++ B) from by rw [List.append_assoc]]
  rw [openLenP_append A (s ++ B) hA (by simp [hs]), openLenP_append s B hs hB,
    listHeadD_append s B pt0 hs]
  ring

/-- The central 2-opt accounting identity: reversing the middle block of
a closed walk replaces the two cut edges with the two reconnection
edges and changes nothing else. -/
theorem openLenP_reverse_middle (A s B : List (ℝ × ℝ)) (hA : A ≠ []) (hs : s ≠ [])
    (hB : B ≠ []) :
    openLenP (A ++ s.reverse ++ B) +
      (dist2 (A.getLastD pt0) (s.headD pt0) + dist2 (s.getLastD pt0) (B.headD pt0)) =
    openLenP (A ++ s ++ B) +
      (dist2 (A.getLastD pt0) (s.getLastD pt0) + dist2 (s.headD pt0) (B.headD pt0)) := by
  rw [openLenP_three A s.reverse B hA (by simpa using hs) hB,
    openLenP_three A s B hA hs hB, openLenP_reverse,
    listHeadD_reverse, listGetLastD_reverse]
  ring

/-- The in-place segment reversal `path[i:j+1] = path[i:j+1][::-1]` of
`two_opt` (generic in the element type). -/
def reverseSegment {α : Type} (path : List α) (i j : ℕ) : List α :=
  path.take i ++ ((path.drop i).take (j + 1 - i)).reverse ++ path.drop (j + 1)

/-- `points[path[k]]`: the point the tour visits at position `k`. -/
noncomputable def pathPt (pts : List (ℝ × ℝ)) (path : List ℕ) (k : ℕ) : ℝ × ℝ :=
  pts.getD (path.getD k 0) pt0

/-- One `(i, j)` candidate of a 2-opt sweep: compare the two current
edges `(i-1, i)` and `(j, (j+1) % n)` against the reconnected edges
`(i-1, j)` and `(i, (j+1) % n)`, and reverse `path[i..j]` when the new
pair is strictly shorter. -/
noncomputable def twoOptPair (pts : List (ℝ × ℝ)) (n : ℕ) (st : List ℕ × Bool)
    (i j : ℕ) : List ℕ × Bool :=
  if dist2 (pathPt pts st.1 (i - 1)) (pathPt pts st.1 j) +
      dist2 (pathPt pts st.1 i) (pathPt pts st.1 ((j + 1) % n)) <
    dist2 (pathPt pts st.1 (i - 1)) (pathPt pts st.1 i) +
      dist2 (pathPt pts st.1 j) (pathPt pts st.1 ((j + 1) % n)) then
    (reverseSegment st.1 i j, true)
  else st

/-- One full sweep: `for i in range(1, n-1): for j in range(i+1, n)`. -/
noncomputable def twoOptSweep (pts : List (ℝ × ℝ)) (n : ℕ) (path : List ℕ) :
    List ℕ × Bool :=
  ((List.range (n - 1)).drop 1).foldl
    (fun st i => ((List.range n).drop (i + 1)).foldl
      (fun s j => twoOptPair pts n s i j) st)
    (path, false)

/-- The `while improved and iter_count < iterations` loop of `two_opt`:
run sweeps until one performs no reversal or the budget is spent. -/
noncomputable def twoOptLoop (pts : List (ℝ × ℝ)) (n : ℕ) : ℕ → List ℕ → List ℕ
  | 0, path => path
  | fuel + 1, path =>
    let r := twoOptSweep pts n path
    if r.2 then twoOptLoop pts n fuel r.1 else r.1

/-- `two_opt(points, initial_path, iterations)`. -/
noncomputable def twoOpt (pts : List (ℝ × ℝ)) (initial : List ℕ) (iterations : ℕ) :
    List ℕ :=
  twoOptLoop pts initial.length iterations initial

/-- The spec's tour length: the open-path sum of consecutive Euclidean
distances over the path order (first and last not connected). -/
noncomputable def tourLength (pts : List (ℝ × ℝ)) (path : List ℕ) : ℝ :=
  openLenP (path.map fun k => pts.getD k pt0)

/-- The closed-walk tour length: the open-path sum plus the closing edge
from the tour's last point back to its first. -/
noncomputable def cycLength (pts : List (ℝ × ℝ)) (path : List ℕ) : ℝ :=
  cycLenP (path.map fun k => pts.getD k pt0)

theorem reverseSegment_perm {α : Type} (path : List α) (i j : ℕ) (hij : i ≤ j + 1) :
    (reverseSegment path i j).Perm path := by
  rw [reverseSegment, List.append_assoc]
  conv_rhs => rw [← List.take_append_drop i path]
  refine List.Perm.append_left _ ?_
  conv_rhs => rw [← List.take_append_drop (j + 1 - i) (path.drop i)]
  rw [List.drop_drop, show i + (j + 1 - i) = j + 1 from by omega]
  exact List.Perm.append ((path.drop i).take (j + 1 - i)).reverse_perm (List.Perm.refl _)

theorem reverseSegment_head {α : Type} (path : List α) (i j : ℕ) (hi : 1 ≤ i) :
    (reverseSegment path i j).head? = path.head? := by
  cases path with
  | nil => simp [reverseSegment]
  | cons a t =>
    cases i with
    | zero => omega
    | succ m => rfl

theorem map_reverseSegment {α β : Type} (f : α → β) (path : List α) (i j : ℕ) :
    (reverseSegment path i j).map f = reverseSegment (path.map f) i j := by
  simp [reverseSegment, List.map_take, List.map_drop]

/-- The accounting identity at the tour level: reversing `path[i..j]`
changes the closed-walk length by replacing edges `(i-1, i)` and
`(j, (j+1) % n)` with `(i-1, j)` and `(i, (j+1) % n)`. -/
theorem cycLength_reverseSegment (pts : List (ℝ × ℝ)) (path : List ℕ) (i j : ℕ)
    (hi : 1 ≤ i) (hij : i ≤ j) (hj : j < path.length) :
    cycLength pts (reverseSegment path i j) +
      (dist2 (pathPt pts path (i - 1)) (pathPt pts path i) +
        dist2 (pathPt pts path j) (pathPt pts path ((j + 1) % path.length))) =
    cycLength pts path +
      (dist2 (pathPt pts path (i - 1)) (pathPt pts path j) +
        dist2 (pathPt pts path i) (pathPt pts path ((j + 1) % path.length))) := by
  have hlen : (path.map fun k => pts.getD k pt0).length = path.length := by
    rw [List.length_map]
  set l : List (ℝ × ℝ) := path.map fun k => pts.getD k pt0 with hl
  have hjl : j < l.length := by rw [hlen]; exact hj
  have hA : l.take i ≠ [] := by
    have : (l.take i).length = i := by
      rw [List.length_take]
      omega
    intro hc
    rw [hc] at this
    simp at this
    omega
  have hs : (l.drop i).take (j + 1 - i) ≠ [] := by
    have : ((l.drop i).take (j + 1 - i)).length = j + 1 - i := by
      rw [List.length_take, List.length_drop]
      omega
    intro hc
    rw [hc] at this
    simp at this
    omega
  have hB' : l.drop (j + 1) ++ [l.headD pt0] ≠ [] := by simp
  -- both closed walks as A ++ middle ++ B'
  have hsplit : l = l.take i ++ (l.drop i).take (j + 1 - i) ++ l.drop (j + 1) := by
    conv_lhs => rw [← List.take_append_drop i l]
    rw [List.append_assoc]
    congr 1
    conv_lhs => rw [← List.take_append_drop (j + 1 - i) (l.drop i)]
    rw [List.drop_drop, show i + (j + 1 - i) = j + 1 from by omega]
  have hclosed : l ++ [l.headD pt0] =
      l.take i ++ (l.drop i).take (j + 1 - i) ++ (l.drop (j + 1) ++ [l.headD pt0]) := by
    have h1 := congrArg (fun x => x ++ [l.headD pt0]) hsplit
    simp only at h1
    rw [h1]
    exact List.append_assoc _ _ _
  have hrevmap : (reverseSegment path i j).map (fun k => pts.getD k pt0) =
      reverseSegment l i j := map_reverseSegment _ path i j
  have hrevhead : (reverseSegment l i j).headD pt0 = l.headD pt0 := by
    rw [List.headD_eq_head?, List.headD_eq_head?, reverseSegment_head l i j hi]
  have hclosedrev : reverseSegment l i j ++ [(reverseSegment l i j).headD pt0] =
      l.take i ++ ((l.drop i).take (j + 1 - i)).reverse ++
        (l.drop (j + 1) ++ [l.headD pt0]) := by
    rw [hrevhead, reverseSegment]
    exact List.append_assoc _ _ _
  -- the accounting identity on point lists
  have hkey := openLenP_reverse_middle (l.take i) ((l.drop i).take (j + 1 - i))
    (l.drop (j + 1) ++ [l.headD pt0]) hA hs hB'
  -- endpoint identifications
  have hgetD : ∀ k, k < path.length → l.getD k pt0 = pathPt pts path k := by
    intro k hk
    rw [hl, listGetD_map_lt _ path k pt0 0 hk, pathPt]
  have hAlast : (l.take i).getLastD pt0 = pathPt pts path (i - 1) := by
    rw [listGetLastD_eq_getD, List.length_take, show min i l.length - 1 = i - 1 from by
      omega, listGetD_take _ _ _ _ (by omega : i - 1 < i), hgetD (i - 1) (by omega)]
  have hshead : ((l.drop i).take (j + 1 - i)).headD pt0 = pathPt pts path i := by
    rw [listHeadD_eq_getD, listGetD_take _ _ _ _ (by omega : 0 < j + 1 - i),
      listGetD_drop, Nat.add_zero, hgetD i (by omega)]
  have hslast : ((l.drop i).take (j + 1 - i)).getLastD pt0 = pathPt pts path j := by
    rw [listGetLastD_eq_getD, List.length_take, List.length_drop,
      show min (j + 1 - i) (l.length - i) - 1 = j - i from by omega,
      listGetD_take _ _ _ _ (by omega : j - i < j + 1 - i), listGetD_drop,
      show i + (j - i) = j from by omega, hgetD j hj]
  have hB'head : (l.drop (j + 1) ++ [l.headD pt0]).headD pt0 =
      pathPt pts path ((j + 1) % path.length) := by
    rcases Nat.lt_or_ge (j + 1) path.length with hcase | hcase
    · have hBne : l.drop (j + 1) ≠ [] := by
        have : (l.drop (j + 1)).length = l.length - (j + 1) := List.length_drop _ _
        intro hc
        rw [hc] at this
        simp at this
        omega
      rw [listHeadD_append _ _ _ hBne, listHeadD_eq_getD, listGetD_drop, Nat.add_zero,
        Nat.mod_eq_of_lt hcase, hgetD (j + 1) hcase]
    · have hjn : j + 1 = path.length := by omega
      have hBnil : l.drop (j + 1) = [] := by
        apply List.drop_eq_nil_of_le
        rw [hlen]
        omega
      rw [hBnil, List.nil_append, hjn, Nat.mod_self]
      rw [show ([l.headD pt0] : List (ℝ × ℝ)).headD pt0 = l.headD pt0 from rfl,
        listHeadD_eq_getD, hgetD 0 (by omega)]
  rw [cycLength, cycLength, cycLenP, cycLenP, hrevmap, hclosedrev, hclosed]
  rw [hAlast, hshead, hslast, hB'head] at hkey
  linarith

theorem mem_range_drop {k t m : ℕ} (h : m ∈ (List.range k).drop t) : t ≤ m ∧ m < k := by
  constructor
  · obtain ⟨idx, hidx, hval⟩ := List.mem_iff_getElem.mp h
    rw [List.getElem_drop, List.getElem_range] at hval
    omega
  · exact List.mem_range.mp (List.mem_of_mem_drop h)

/-- One 2-opt candidate preserves the tour as a multiset and its first
element, and never increases the closed-walk length. -/
theorem twoOptPair_master (pts : List (ℝ × ℝ)) (n : ℕ) (st : List ℕ × Bool) (i j : ℕ)
    (hi : 1 ≤ i) (hij : i < j) (hj : j < n) (hn : st.1.length = n) :
    (twoOptPair pts n st i j).1.Perm st.1 ∧
      (twoOptPair pts n st i j).1.head? = st.1.head? ∧
      cycLength pts (twoOptPair pts n st i j).1 ≤ cycLength pts st.1 := by
  rw [twoOptPair]
  split
  · next h =>
    refine ⟨reverseSegment_perm _ _ _ (by omega), reverseSegment_head _ _ _ hi, ?_⟩
    have hacc := cycLength_reverseSegment pts st.1 i j hi (le_of_lt hij)
      (by omega : j < st.1.length)
    rw [hn] at hacc
    linarith
  · exact ⟨List.Perm.refl _, rfl, le_refl _⟩

theorem twoOptInner_master (pts : List (ℝ × ℝ)) (n i : ℕ) (hi : 1 ≤ i) :
    ∀ (js : List ℕ) (st : List ℕ × Bool), (∀ j ∈ js, i < j ∧ j < n) →
      st.1.length = n →
      ((js.foldl (fun s j => twoOptPair pts n s i j) st).1.Perm st.1 ∧
        (js.foldl (fun s j => twoOptPair pts n s i j) st).1.head? = st.1.head? ∧
        cycLength pts (js.foldl (fun s j => twoOptPair pts n s i j) st).1 ≤
          cycLength pts st.1) := by
  intro js
  induction js with
  | nil => exact fun st _ _ => ⟨List.Perm.refl _, rfl, le_refl _⟩
  | cons j js' ih =>
    intro st hjs hn
    rw [List.foldl_cons]
    have hj := hjs j (List.mem_cons_self j js')
    have h1 := twoOptPair_master pts n st i j hi hj.1 hj.2 hn
    have h2 := ih (twoOptPair pts n st i j) (fun x hx => hjs x (List.mem_cons_of_mem j hx))
      (h1.1.length_eq.trans hn)
    exact ⟨h2.1.trans h1.1, h2.2.1.trans h1.2.1, le_trans h2.2.2 h1.2.2⟩

theorem twoOptSweep_master (pts : List (ℝ × ℝ)) (n : ℕ) (path : List ℕ)
    (hn : path.length = n) :
    (twoOptSweep pts n path).1.Perm path ∧
      (twoOptSweep pts n path).1.head? = path.head? ∧
      cycLength pts (twoOptSweep pts n path).1 ≤ cycLength pts path := by
  rw [twoOptSweep]
  suffices h : ∀ (is : List ℕ) (st : List ℕ × Bool), (∀ i ∈ is, 1 ≤ i) →
      st.1.length = n →
      ((is.foldl (fun st i => ((List.range n).drop (i + 1)).foldl
          (fun s j => twoOptPair pts n s i j) st) st).1.Perm st.1 ∧
        (is.foldl (fun st i => ((List.range n).drop (i + 1)).foldl
          (fun s j => twoOptPair pts n s i j) st) st).1.head? = st.1.head? ∧
        cycLength pts (is.foldl (fun st i => ((List.range n).drop (i + 1)).foldl
          (fun s j => twoOptPair pts n s i j) st) st).1 ≤ cycLength pts st.1) by
    exact h _ (path, false) (fun i hmem => (mem_range_drop hmem).1) hn
  intro is
  induction is with
  | nil => exact fun st _ _ => ⟨List.Perm.refl _, rfl, le_refl _⟩
  | cons i is' ih =>
    intro st his hn'
    rw [List.foldl_cons]
    have h1 := twoOptInner_master pts n i (his i (List.mem_cons_self i is'))
      ((List.range n).drop (i + 1)) st
      (fun j hj => ⟨by have := (mem_range_drop hj).1; omega, (mem_range_drop hj).2⟩) hn'
    have h2 := ih _ (fun x hx => his x (List.mem_cons_of_mem i hx))
      (h1.1.length_eq.trans hn')
    exact ⟨h2.1.trans h1.1, h2.2.1.trans h1.2.1, le_trans h2.2.2 h1.2.2⟩

theorem twoOptLoop_master (pts : List (ℝ × ℝ)) (n : ℕ) :
    ∀ (fuel : ℕ) (path : List ℕ), path.length = n →
      ((twoOptLoop pts n fuel path).Perm path ∧
        (twoOptLoop pts n fuel path).head? = path.head? ∧
        cycLength pts (twoOptLoop pts n fuel path) ≤ cycLength pts path) := by
  intro fuel
  induction fuel with
  | zero => exact fun path _ => ⟨List.Perm.refl _, rfl, le_refl _⟩
  | succ f ih =>
    intro path hn
    have hs := twoOptSweep_master pts n path hn
    simp only [twoOptLoop]
    split
    · have h2 := ih (twoOptSweep pts n path).1 (hs.1.length_eq.trans hn)
      exact ⟨h2.1.trans hs.1, h2.2.1.trans hs.2.1, le_trans h2.2.2 hs.2.2⟩
    · exact hs

/-- `two_opt` returns a permutation of its input tour with the same
first element and a closed-walk length no larger than the input's. -/
theorem twoOpt_master (pts : List (ℝ × ℝ)) (initial : List ℕ) (K : ℕ) :
    (twoOpt pts initial K).Perm initial ∧
      (twoOpt pts initial K).head? = initial.head? ∧
      cycLength pts (twoOpt pts initial K) ≤ cycLength pts initial :=
  twoOptLoop_master pts initial.length K initial rfl

/-- C7.  For every input tour that is a permutation of `0..N-1` and
every budget `K`, the tour returned by `two_opt` is still a permutation
of `0..N-1`: each applied move reverses the sub-path `[i..j]`, which
permutes indices and never drops or duplicates one. -/
theorem C7_two_opt_permutation (pts : List (ℝ × ℝ)) (path : List ℕ) (N K : ℕ)
    (h : path.Perm (List.range N)) :
    (twoOpt pts path K).Perm (List.range N) :=
  (twoOpt_master pts path K).1.trans h

/-- Witness for `C7_two_opt_permutation` on a concrete 3-point tour. -/
theorem C7_two_opt_permutation_witness :
    (twoOpt [(0, 0), (1, 0), (2, 0)] [2, 0, 1] 5).Perm (List.range 3) :=
  C7_two_opt_permutation [(0, 0), (1, 0), (2, 0)] [2, 0, 1] 3 5 (by decide)

/-- C2, amended.  The quantity `two_opt` can never increase is the
closed-walk tour length (open-path length plus the implicit closing
edge `(last, first)` that the code's `(j+1) % n` comparison accounts
for); the open-path length of the claim can strictly increase. -/
theorem C2_two_opt_length_amended (pts : List (ℝ × ℝ)) (path : List ℕ) (K : ℕ) :
    cycLength pts (twoOpt pts path K) ≤ cycLength pts path :=
  (twoOpt_master pts path K).2.2

/-- The four points of the C2 counterexample: a rectangle-like set with
all pairwise distances integral. -/
noncomputable def pts4 : List (ℝ × ℝ) := [(0, 0), (0, 4), (3, 4), (0, 8)]

theorem dist2_eval (a b c d e : ℝ) (he : 0 ≤ e) (h : (a - c) ^ 2 + (b - d) ^ 2 = e ^ 2) :
    dist2 (a, b) (c, d) = e := by
  show Real.sqrt ((a - c) ^ 2 + (b - d) ^ 2) = e
  rw [h, Real.sqrt_sq he]

theorem twoOpt_pts4 : twoOpt pts4 [0, 1, 2, 3] 1 = [0, 1, 3, 2] := by
  have e01 : dist2 ((0:ℝ), (0:ℝ)) ((0:ℝ), (4:ℝ)) = 4 :=
    dist2_eval _ _ _ _ _ (by norm_num) (by norm_num)
  have e02 : dist2 ((0:ℝ), (0:ℝ)) ((3:ℝ), (4:ℝ)) = 5 :=
    dist2_eval _ _ _ _ _ (by norm_num) (by norm_num)
  have e03 : dist2 ((0:ℝ), (0:ℝ)) ((0:ℝ), (8:ℝ)) = 8 :=
    dist2_eval _ _ _ _ _ (by norm_num) (by norm_num)
  have e10 : dist2 ((0:ℝ), (4:ℝ)) ((0:ℝ), (0:ℝ)) = 4 :=
    dist2_eval _ _ _ _ _ (by norm_num) (by norm_num)
  have e12 : dist2 ((0:ℝ), (4:ℝ)) ((3:ℝ), (4:ℝ)) = 3 :=
    dist2_eval _ _ _ _ _ (by norm_num) (by norm_num)
  have e13 : dist2 ((0:ℝ), (4:ℝ)) ((0:ℝ), (8:ℝ)) = 4 :=
    dist2_eval _ _ _ _ _ (by norm_num) (by norm_num)
  have e20 : dist2 ((3:ℝ), (4:ℝ)) ((0:ℝ), (0:ℝ)) = 5 :=
    dist2_eval _ _ _ _ _ (by norm_num) (by norm_num)
  have e23 : dist2 ((3:ℝ), (4:ℝ)) ((0:ℝ), (8:ℝ)) = 5 :=
    dist2_eval _ _ _ _ _ (by norm_num) (by norm_num)
  have e30 : dist2 ((0:ℝ), (8:ℝ)) ((0:ℝ), (0:ℝ)) = 8 :=
    dist2_eval _ _ _ _ _ (by norm_num) (by norm_num)
  have hc12 : ¬ (dist2 ((0:ℝ), (0:ℝ)) ((3:ℝ), (4:ℝ)) + dist2 ((0:ℝ), (4:ℝ)) ((0:ℝ), (8:ℝ)) <
      dist2 ((0:ℝ), (0:ℝ)) ((0:ℝ), (4:ℝ)) + dist2 ((3:ℝ), (4:ℝ)) ((0:ℝ), (8:ℝ))) := by
    rw [e02, e13, e01, e23]
    norm_num
  have hc13 : ¬ (dist2 ((0:ℝ), (0:ℝ)) ((0:ℝ), (8:ℝ)) + dist2 ((0:ℝ), (4:ℝ)) ((0:ℝ), (0:ℝ)) <
      dist2 ((0:ℝ), (0:ℝ)) ((0:ℝ), (4:ℝ)) + dist2 ((0:ℝ), (8:ℝ)) ((0:ℝ), (0:ℝ))) := by
    rw [e03, e10, e01, e30]
    norm_num
  have hc23 : dist2 ((0:ℝ), (4:ℝ)) ((0:ℝ), (8:ℝ)) + dist2 ((3:ℝ), (4:ℝ)) ((0:ℝ), (0:ℝ)) <
      dist2 ((0:ℝ), (4:ℝ)) ((3:ℝ), (4:ℝ)) + dist2 ((0:ℝ), (8:ℝ)) ((0:ℝ), (0:ℝ)) := by
    rw [e13, e20, e12, e30]
    norm_num
  have ea : twoOptPair pts4 4 ([0, 1, 2, 3], false) 1 2 = ([0, 1, 2, 3], false) := by
    have h : twoOptPair pts4 4 ([0, 1, 2, 3], false) 1 2 =
        if dist2 ((0:ℝ), (0:ℝ)) ((3:ℝ), (4:ℝ)) + dist2 ((0:ℝ), (4:ℝ)) ((0:ℝ), (8:ℝ)) <
            dist2 ((0:ℝ), (0:ℝ)) ((0:ℝ), (4:ℝ)) + dist2 ((3:ℝ), (4:ℝ)) ((0:ℝ), (8:ℝ)) then
          (reverseSegment [0, 1, 2, 3] 1 2, true)
        else ([0, 1, 2, 3], false) := rfl
    rw [h, if_neg hc12]
  have eb : twoOptPair pts4 4 ([0, 1, 2, 3], false) 1 3 = ([0, 1, 2, 3], false) := by
    have h : twoOptPair pts4 4 ([0, 1, 2, 3], false) 1 3 =
        if dist2 ((0:ℝ), (0:ℝ)) ((0:ℝ), (8:ℝ)) + dist2 ((0:ℝ), (4:ℝ)) ((0:ℝ), (0:ℝ)) <
            dist2 ((0:ℝ), (0:ℝ)) ((0:ℝ), (4:ℝ)) + dist2 ((0:ℝ), (8:ℝ)) ((0:ℝ), (0:ℝ)) then
          (reverseSegment [0, 1, 2, 3] 1 3, true)
        else ([0, 1, 2, 3], false) := rfl
    rw [h, if_neg hc13]
  have ec : twoOptPair pts4 4 ([0, 1, 2, 3], false) 2 3 = ([0, 1, 3, 2], true) := by
    have h : twoOptPair pts4 4 ([0, 1, 2, 3], false) 2 3 =
        if dist2 ((0:ℝ), (4:ℝ)) ((0:ℝ), (8:ℝ)) + dist2 ((3:ℝ), (4:ℝ)) ((0:ℝ), (0:ℝ)) <
            dist2 ((0:ℝ), (4:ℝ)) ((3:ℝ), (4:ℝ)) + dist2 ((0:ℝ), (8:ℝ)) ((0:ℝ), (0:ℝ)) then
          (reverseSegment [0, 1, 2, 3] 2 3, true)
        else ([0, 1, 2, 3], false) := rfl
    rw [h, if_pos hc23]
    rfl
  have hinner : ([2, 3] : List ℕ).foldl (fun s j => twoOptPair pts4 4 s 1 j)
      ([0, 1, 2, 3], false) = ([0, 1, 2, 3], false) := by
    rw [List.foldl_cons, ea, List.foldl_cons, eb, List.foldl_nil]
  have hsweep : twoOptSweep pts4 4 [0, 1, 2, 3] = ([0, 1, 3, 2], true) := by
    have h : twoOptSweep pts4 4 [0, 1, 2, 3] =
        ((List.range 4).drop 3).foldl (fun s j => twoOptPair pts4 4 s 2 j)
          (((List.range 4).drop 2).foldl (fun s j => twoOptPair pts4 4 s 1 j)
            ([0, 1, 2, 3], false)) := rfl
    rw [h, show (List.range 4).drop 2 = [2, 3] from rfl,
      show (List.range 4).drop 3 = [3] from rfl, hinner, List.foldl_cons, ec,
      List.foldl_nil]
  show twoOptLoop pts4 4 1 [0, 1, 2, 3] = [0, 1, 3, 2]
  have h : twoOptLoop pts4 4 1 [0, 1, 2, 3] =
      if (twoOptSweep pts4 4 [0, 1, 2, 3]).2 then
        twoOptLoop pts4 4 0 (twoOptSweep pts4 4 [0, 1, 2, 3]).1
      else (twoOptSweep pts4 4 [0, 1, 2, 3]).1 := rfl
  rw [h, hsweep]
  rfl

/-- C2, counterexample.  On the four points `(0,0), (0,4), (3,4), (0,8)`
with initial tour `[0,1,2,3]` and budget `K = 1`, the single applied
swap (at `i = 2`, `j = 3`, justified by the phantom wrap-around edge
`(j+1) % n`) increases the open-path tour length from `12` to `13`. -/
theorem C2_two_opt_length_counterexample :
    tourLength pts4 [0, 1, 2, 3] < tourLength pts4 (twoOpt pts4 [0, 1, 2, 3] 1) := by
  rw [twoOpt_pts4]
  have t1 : tourLength pts4 [0, 1, 2, 3] =
      dist2 ((0:ℝ), (0:ℝ)) ((0:ℝ), (4:ℝ)) + (dist2 ((0:ℝ), (4:ℝ)) ((3:ℝ), (4:ℝ)) +
        (dist2 ((3:ℝ), (4:ℝ)) ((0:ℝ), (8:ℝ)) + 0)) := rfl
  have t2 : tourLength pts4 [0, 1, 3, 2] =
      dist2 ((0:ℝ), (0:ℝ)) ((0:ℝ), (4:ℝ)) + (dist2 ((0:ℝ), (4:ℝ)) ((0:ℝ), (8:ℝ)) +
        (dist2 ((0:ℝ), (8:ℝ)) ((3:ℝ), (4:ℝ)) + 0)) := rfl
  rw [t1, t2,
    dist2_eval _ _ _ _ 4 (by norm_num) (by norm_num),
    dist2_eval _ _ _ _ 3 (by norm_num) (by norm_num),
    dist2_eval _ _ _ _ 5 (by norm_num) (by norm_num),
    dist2_eval _ _ _ _ 4 (by norm_num) (by norm_num),
    dist2_eval _ _ _ _ 5 (by norm_num) (by norm_num)]
  norm_num

/-!
Nearest-neighbor construction (`nearest_neighbor_tsp`).  The unvisited
pool is modelled as an ascending list, mirroring CPython's iteration
order for a dense small-int set built from `range(n)`; `np.argmin`
returns the first index attaining the minimum.
-/

/-- `np.argmin`: index of the first occurrence of the minimum. -/
noncomputable def argminFirst : List ℝ → ℕ
  | [] => 0
  | [_] => 0
  | x :: y :: t =>
    if x ≤ (y :: t).getD (argminFirst (y :: t)) 0 then 0 else argminFirst (y :: t) + 1

theorem argminFirst_lt (l : List ℝ) (h : l ≠ []) : argminFirst l < l.length := by
  induction l with
  | nil => exact absurd rfl h
  | cons x t ih =>
    cases t with
    | nil => exact Nat.zero_lt_one
    | cons y t' =>
      rw [argminFirst]
      split
      · simp
      · have := ih (by simp)
        simp only [List.length_cons] at this ⊢
        omega

theorem argminFirst_min (l : List ℝ) :
    ∀ m, m < l.length → l.getD (argminFirst l) 0 ≤ l.getD m 0 := by
  induction l with
  | nil => intro m hm; simp at hm
  | cons x t ih =>
    cases t with
    | nil =>
      intro m hm
      have hm0 : m = 0 := by
        simpa using hm
      subst hm0
      exact le_refl _
    | cons y t' =>
      intro m hm
      rw [argminFirst]
      split
      · next hle =>
        cases m with
        | zero => exact le_refl _
        | succ m' =>
          rw [List.getD_cons_zero, List.getD_cons_succ]
          exact le_trans hle (ih m' (by simpa using Nat.lt_of_succ_lt_succ hm))
      · next hgt =>
        cases m with
        | zero =>
          rw [List.getD_cons_succ, List.getD_cons_zero]
          exact le_of_lt (lt_of_not_le hgt)
        | succ m' =>
          rw [List.getD_cons_succ, List.getD_cons_succ]
          exact ih m' (by simpa using Nat.lt_of_succ_lt_succ hm)

theorem argminFirst_first (l : List ℝ) :
    ∀ m, m < argminFirst l → l.getD (argminFirst l) 0 < l.getD m 0 := by
  induction l with
  | nil => intro m hm; simp [argminFirst] at hm
  | cons x t ih =>
    cases t with
    | nil => intro m hm; simp [argminFirst] at hm
    | cons y t' =>
      intro m hm
      rw [argminFirst] at hm ⊢
      split
      · next hle => rw [if_pos hle] at hm; omega
      · next hgt =>
        rw [if_neg hgt] at hm
        cases m with
        | zero =>
          rw [List.getD_cons_succ, List.getD_cons_zero]
          exact lt_of_not_le hgt
        | succ m' =>
          rw [List.getD_cons_succ, List.getD_cons_succ]
          exact ih m' (by omega)

theorem listGetD_mem {α : Type} (l : List α) (k : ℕ) (d : α) (h : k < l.length) :
    l.getD k d ∈ l := by
  rw [List.getD_eq_getElem?_getD, List.getElem?_eq_getElem h]
  exact List.getElem_mem _

theorem mem_iff_listGetD {α : Type} (l : List α) (v : α) (d : α) (h : v ∈ l) :
    ∃ m, m < l.length ∧ l.getD m d = v := by
  obtain ⟨m, hm, hv⟩ := List.mem_iff_getElem.mp h
  exact ⟨m, hm, by rw [List.getD_eq_getElem?_getD, List.getElem?_eq_getElem hm]; exact hv⟩

theorem pairwise_lt_getD (l : List ℕ) (hp : l.Pairwise (· < ·)) (a b : ℕ)
    (hab : a < b) (hb : b < l.length) : l.getD a 0 < l.getD b 0 := by
  induction l generalizing a b with
  | nil => simp at hb
  | cons x t ih =>
    rcases List.pairwise_cons.mp hp with ⟨hx, ht⟩
    cases a with
    | zero =>
      cases b with
      | zero => omega
      | succ b' =>
        rw [List.getD_cons_zero, List.getD_cons_succ]
        exact hx _ (listGetD_mem t b' 0 (by simpa using Nat.lt_of_succ_lt_succ hb))
    | succ a' =>
      cases b with
      | zero => omega
      | succ b' =>
        rw [List.getD_cons_succ, List.getD_cons_succ]
        exact ih ht a' b' (by omega) (by simpa using Nat.lt_of_succ_lt_succ hb)

/-- The greedy choice of `nearest_neighbor_tsp`: the unvisited index
whose point is nearest to the current point, first minimum wins
(`np.argmin` over `cdist`). -/
noncomputable def nnChoose (pts : List (ℝ × ℝ)) (cur : ℕ) (unv : List ℕ) : ℕ :=
  unv.getD (argminFirst (unv.map fun u => dist2 (pts.getD cur pt0) (pts.getD u pt0))) 0

/-- The `while unvisited:` loop of `nearest_neighbor_tsp`, with fuel
equal to the initial pool size. -/
noncomputable def nnLoop (pts : List (ℝ × ℝ)) : ℕ → ℕ → List ℕ → List ℕ
  | 0, _, _ => []
  | fuel + 1, cur, unv =>
    if unv = [] then []
    else
      nnChoose pts cur unv :: nnLoop pts fuel (nnChoose pts cur unv) (unv.erase (nnChoose pts cur unv))

/-- `nearest_neighbor_tsp(points)`: start at index 0, repeatedly move to
the nearest unvisited index.  (For `N = 0` the source raises `KeyError`;
the model is used only for `N ≥ 1`.) -/
noncomputable def nearestNeighbor (pts : List (ℝ × ℝ)) : List ℕ :=
  0 :: nnLoop pts (pts.length - 1) 0 ((List.range pts.length).drop 1)

/-- The claim's step property, spelled from the spec's words: each
emitted index is a not-yet-visited index, no unvisited point is closer
to the current point, and among equally close ones it has the lowest
index; the walk consumes the whole unvisited pool. -/
def IsGreedyFrom (pts : List (ℝ × ℝ)) : ℕ → List ℕ → List ℕ → Prop
  | _, unv, [] => unv = []
  | cur, unv, t :: rest =>
    (t ∈ unv ∧
      (∀ v ∈ unv, dist2 (pts.getD cur pt0) (pts.getD t pt0) ≤
        dist2 (pts.getD cur pt0) (pts.getD v pt0)) ∧
      (∀ v ∈ unv, dist2 (pts.getD cur pt0) (pts.getD v pt0) =
        dist2 (pts.getD cur pt0) (pts.getD t pt0) → t ≤ v)) ∧
    IsGreedyFrom pts t (unv.erase t) rest

theorem nnChoose_spec (pts : List (ℝ × ℝ)) (cur : ℕ) (unv : List ℕ) (hne : unv ≠ [])
    (hp : unv.Pairwise (· < ·)) :
    nnChoose pts cur unv ∈ unv ∧
      (∀ v ∈ unv, dist2 (pts.getD cur pt0) (pts.getD (nnChoose pts cur unv) pt0) ≤
        dist2 (pts.getD cur pt0) (pts.getD v pt0)) ∧
      (∀ v ∈ unv, dist2 (pts.getD cur pt0) (pts.getD v pt0) =
        dist2 (pts.getD cur pt0) (pts.getD (nnChoose pts cur unv) pt0) →
        nnChoose pts cur unv ≤ v) := by
  set dl := unv.map fun u => dist2 (pts.getD cur pt0) (pts.getD u pt0) with hdl
  have hdlen : dl.length = unv.length := by rw [hdl, List.length_map]
  have hdne : dl ≠ [] := by
    rw [hdl]
    simpa using hne
  have hr : argminFirst dl < unv.length := by
    have := argminFirst_lt dl hdne
    omega
  have hchoose : ∀ k, k < unv.length →
      dl.getD k 0 = dist2 (pts.getD cur pt0) (pts.getD (unv.getD k 0) pt0) := by
    intro k hk
    rw [hdl, listGetD_map_lt _ unv k 0 0 hk]
  refine ⟨listGetD_mem unv _ 0 hr, ?_, ?_⟩
  · intro v hv
    obtain ⟨m, hm, hval⟩ := mem_iff_listGetD unv v 0 hv
    rw [nnChoose, ← hchoose _ hr, ← hval, ← hchoose _ hm]
    exact argminFirst_min dl m (by omega)
  · intro v hv heq
    obtain ⟨m, hm, hval⟩ := mem_iff_listGetD unv v 0 hv
    rcases Nat.lt_or_ge m (argminFirst dl) with hlt | hge
    · exfalso
      have := argminFirst_first dl m hlt
      rw [hchoose m hm, hchoose (argminFirst dl) hr, hval] at this
      rw [nnChoose, ← hdl] at heq
      rw [heq] at this
      exact lt_irrefl _ this
    · rcases Nat.eq_or_lt_of_le hge with heqm | hltm
      · rw [nnChoose, ← hdl, heqm, hval]
      · rw [nnChoose, ← hdl, ← hval]
        exact le_of_lt (pairwise_lt_getD unv hp _ m hltm hm)

theorem nnLoop_spec (pts : List (ℝ × ℝ)) :
    ∀ (fuel : ℕ) (unv : List ℕ) (cur : ℕ), unv.length = fuel →
      unv.Pairwise (· < ·) →
      (nnLoop pts fuel cur unv).Perm unv ∧
        IsGreedyFrom pts cur unv (nnLoop pts fuel cur unv) := by
  intro fuel
  induction fuel with
  | zero =>
    intro unv cur hlen _
    have : unv = [] := List.length_eq_zero.mp hlen
    subst this
    exact ⟨List.Perm.refl _, rfl⟩
  | succ f ih =>
    intro unv cur hlen hp
    have hne : unv ≠ [] := by
      intro hc
      subst hc
      simp at hlen
    rw [nnLoop, if_neg hne]
    have hspec := nnChoose_spec pts cur unv hne hp
    have herase_len : (unv.erase (nnChoose pts cur unv)).length = f := by
      rw [List.length_erase_of_mem hspec.1, hlen]
      omega
    have herase_pw : (unv.erase (nnChoose pts cur unv)).Pairwise (· < ·) :=
      hp.sublist (List.erase_sublist _ _)
    have hrec := ih (unv.erase (nnChoose pts cur unv)) (nnChoose pts cur unv)
      herase_len herase_pw
    constructor
    · exact ((hrec.1.cons _).trans (List.perm_cons_erase hspec.1).symm)
    · exact ⟨⟨hspec.1, hspec.2.1, hspec.2.2⟩, hrec.2⟩

/-- C3.  For every point set of size `N ≥ 1`, `nearest_neighbor_tsp`
returns a permutation of `0..N-1` starting at index `0`; at each step
the emitted index is the nearest not-yet-visited point with ties broken
by the lowest index (the `IsGreedyFrom` predicate, spelled from the
claim); and `N = 1` yields the single-element tour `[0]`. -/
theorem C3_nearest_neighbor_confirmed (pts : List (ℝ × ℝ)) (h : pts ≠ []) :
    (nearestNeighbor pts).Perm (List.range pts.length) ∧
      (nearestNeighbor pts).head? = some 0 ∧
      IsGreedyFrom pts 0 ((List.range pts.length).drop 1) (nearestNeighbor pts).tail ∧
      (pts.length = 1 → nearestNeighbor pts = [0]) := by
  have hlen0 : ((List.range pts.length).drop 1).length = pts.length - 1 := by
    rw [List.length_drop, List.length_range]
  have hpw : ((List.range pts.length).drop 1).Pairwise (· < ·) :=
    (List.pairwise_lt_range _).sublist (List.drop_sublist _ _)
  have hspec := nnLoop_spec pts (pts.length - 1) ((List.range pts.length).drop 1) 0
    hlen0 hpw
  have hcons : List.range pts.length = 0 :: (List.range pts.length).drop 1 := by
    cases hn : pts.length with
    | zero =>
      exact absurd (List.length_eq_zero.mp hn) h
    | succ m =>
      rw [List.range_succ_eq_map]
      rfl
  refine ⟨?_, rfl, hspec.2, ?_⟩
  · rw [nearestNeighbor, hcons]
    exact hspec.1.cons 0
  · intro h1
    rw [nearestNeighbor, h1]
    rw [show (1 : ℕ) - 1 = 0 from rfl]
    rfl

/-- Witness for `C3_nearest_neighbor_confirmed` on two concrete
points. -/
theorem C3_nearest_neighbor_confirmed_witness :
    (nearestNeighbor [((0:ℝ), (0:ℝ)), ((1:ℝ), (0:ℝ))]).Perm (List.range 2) ∧
      (nearestNeighbor [((0:ℝ), (0:ℝ)), ((1:ℝ), (0:ℝ))]).head? = some 0 ∧
      IsGreedyFrom [((0:ℝ), (0:ℝ)), ((1:ℝ), (0:ℝ))] 0 ((List.range 2).drop 1)
        (nearestNeighbor [((0:ℝ), (0:ℝ)), ((1:ℝ), (0:ℝ))]).tail ∧
      ((List.length [((0:ℝ), (0:ℝ)), ((1:ℝ), (0:ℝ))]) = 1 →
        nearestNeighbor [((0:ℝ), (0:ℝ)), ((1:ℝ), (0:ℝ))] = [0]) :=
  C3_nearest_neighbor_confirmed [((0:ℝ), (0:ℝ)), ((1:ℝ), (0:ℝ))] (by simp)

/-- C10.  The tour produced by nearest-neighbor construction followed by
2-opt improvement keeps index `0` in first position: the constructor
starts the path at `0` and every 2-opt reversal acts only on positions
`i ≥ 1`. -/
theorem C10_start_fixed (pts : List (ℝ × ℝ)) (K : ℕ) (_h : pts ≠ []) :
    (twoOpt pts (nearestNeighbor pts) K).head? = some 0 := by
  rw [(twoOpt_master pts (nearestNeighbor pts) K).2.1]
  rfl

/-- Witness for `C10_start_fixed` on two concrete points. -/
theorem C10_start_fixed_witness :
    (twoOpt [((0:ℝ), (0:ℝ)), ((1:ℝ), (0:ℝ))]
      (nearestNeighbor [((0:ℝ), (0:ℝ)), ((1:ℝ), (0:ℝ))]) 3).head? = some 0 :=
  C10_start_fixed [((0:ℝ), (0:ℝ)), ((1:ℝ), (0:ℝ))] 3 (by simp)

/-!
Point extraction (`extract_points`): `np.gradient`, gradient magnitude,
and the weighted/uniform random choices.  Randomness is threaded in as
an explicit stream of uniform draws; `np.random.choice` is modelled by
inverse-CDF selection, zeroing out a chosen index's weight when
`replace=False`.
-/

/-- Grid cell access `M[r][c]` with zero default. -/
def Mget (M : List (List ℚ)) (r c : ℕ) : ℚ := (M.getD r []).getD c 0

/-- One-dimensional `np.gradient` at position `i` of an axis of length
`n`: one-sided differences at the two edges, central differences
inside. -/
def grad1 (f : ℕ → ℚ) (n i : ℕ) : ℚ :=
  if n ≤ 1 then 0
  else if i = 0 then f 1 - f 0
  else if i = n - 1 then f (n - 1) - f (n - 2)
  else (f (i + 1) - f (i - 1)) / 2

/-- `grad_y`: the axis-0 component of `np.gradient(M)`. -/
def gradY (M : List (List ℚ)) (rows : ℕ) (r c : ℕ) : ℚ :=
  grad1 (fun k => Mget M k c) rows r

/-- `grad_x`: the axis-1 component of `np.gradient(M)`. -/
def gradX (M : List (List ℚ)) (cols : ℕ) (r c : ℕ) : ℚ :=
  grad1 (fun k => Mget M r k) cols c

/-- `gradient_magnitude[r][c] = sqrt(grad_x² + grad_y²)`. -/
noncomputable def gradMag (M : List (List ℚ)) (rows cols r c : ℕ) : ℝ :=
  Real.sqrt (((gradX M cols r c ^ 2 + gradY M rows r c ^ 2 : ℚ) : ℝ))

/-- `gradient_magnitude.flatten()` in row-major (C) order: cell `k`
corresponds to row `k / cols`, column `k % cols`. -/
noncomputable def flatMag (M : List (List ℚ)) (rows cols : ℕ) : List ℝ :=
  (List.range (rows * cols)).map fun k => gradMag M rows cols (k / cols) (k % cols)

/-- The boundary-policy candidate cells: flat indices of all cells whose
gradient magnitude exceeds the threshold (`np.where` row-major
order). -/
noncomputable def boundaryIdx (M : List (List ℚ)) (rows cols : ℕ) (threshold : ℝ) :
    List ℕ :=
  (List.range (rows * cols)).filter fun k =>
    decide (threshold < gradMag M rows cols (k / cols) (k % cols))

/-- Normalisation `prob = prob / prob.sum()`. -/
noncomputable def probOf (mag : List ℝ) : List ℝ := mag.map fun x => x / mag.sum

/-- Inverse-CDF selection: walk the weight list until the draw `u` falls
inside a weight's bucket. -/
noncomputable def cdfPick : List ℝ → ℝ → ℕ
  | [], _ => 0
  | w :: rest, u => if u < w then 0 else cdfPick rest (u - w) + 1

/-- Remove a chosen index from further consideration by zeroing its
weight (`replace=False`). -/
noncomputable def zeroAt (w : List ℝ) (k : ℕ) : List ℝ := w.set k 0

/-- `np.random.choice(len w, len us, replace=False, p=w)`: one pick per
draw, zeroing each chosen weight. -/
noncomputable def sampleNoReplace : List ℝ → List ℝ → List ℕ
  | _, [] => []
  | w, u :: us => cdfPick w u :: sampleNoReplace (zeroAt w (cdfPick w u)) us

/-- The spec's wording of the gradient policy: sampling `N` cells *with*
replacement (every draw sees the same distribution).  Used only to
compare the spec against the code. -/
noncomputable def sampleWithReplace : List ℝ → List ℝ → List ℕ
  | _, [] => []
  | w, u :: us => cdfPick w u :: sampleWithReplace w us

/-- A draw stream is valid when each draw falls inside the remaining
probability mass. -/
def ValidDraws : List ℝ → List ℝ → Prop
  | _, [] => True
  | w, u :: us => 0 ≤ u ∧ u < w.sum ∧ ValidDraws (zeroAt w (cdfPick w u)) us

/-- The gradient-weighted policy of `extract_points`: normalise the
gradient magnitude into a probability vector and sample flat cell
indices *without* replacement (`replace=False` in the source). -/
noncomputable def extractGradientIdx (M : List (List ℚ)) (rows cols : ℕ)
    (us : List ℝ) : List ℕ :=
  sampleNoReplace (probOf (flatMag M rows cols)) us

/-- The boundary policy of `extract_points`, at the flat-index level:
select every cell above the threshold; subsample uniformly without
replacement when there are more than `numPoints` of them; return all of
them (flagging the shortfall warning) when there are at most
`numPoints`; fall back to the gradient policy when there are none. -/
noncomputable def extractBoundaryIdx (M : List (List ℚ)) (rows cols : ℕ)
    (threshold : ℝ) (numPoints : ℕ) (usB usG : List ℝ) : List ℕ × Bool :=
  if boundaryIdx M rows cols threshold = [] then
    (extractGradientIdx M rows cols usG, false)
  else if numPoints < (boundaryIdx M rows cols threshold).length then
    ((sampleNoReplace (List.replicate (boundaryIdx M rows cols threshold).length 1) usB).map
      (fun i => (boundaryIdx M rows cols threshold).getD i 0), false)
  else (boundaryIdx M rows cols threshold, true)

/-- The coordinates of a flat cell index under the `meshgrid` of the two
`linspace` axes. -/
def cellCoord (xs ys : List ℚ) (cols k : ℕ) : ℚ × ℚ :=
  (xs.getD (k % cols) 0, ys.getD (k / cols) 0)

theorem cdfPick_spec (w : List ℝ) (u : ℝ) (h0 : 0 ≤ u) (hu : u < w.sum) :
    cdfPick w u < w.length ∧ 0 < w.getD (cdfPick w u) 0 := by
  induction w generalizing u with
  | nil =>
    rw [List.sum_nil] at hu
    exact absurd (lt_of_le_of_lt h0 hu) (lt_irrefl 0)
  | cons wh wt ih =>
    rw [cdfPick]
    split
    · next hlt => exact ⟨by simp, lt_of_le_of_lt h0 hlt⟩
    · next hge =>
      have h1 : 0 ≤ u - wh := by
        push_neg at hge
        linarith
      have h2 : u - wh < wt.sum := by
        rw [List.sum_cons] at hu
        linarith
      have := ih (u - wh) h1 h2
      refine ⟨by simpa using Nat.succ_lt_succ this.1, ?_⟩
      rw [List.getD_cons_succ]
      exact this.2

theorem zeroAt_length (w : List ℝ) (k : ℕ) : (zeroAt w k).length = w.length := by
  rw [zeroAt, List.length_set]

theorem zeroAt_getD_self (w : List ℝ) (k : ℕ) (hk : k < w.length) :
    (zeroAt w k).getD k 0 = 0 := by
  rw [zeroAt, List.getD_eq_getElem?_getD, List.getElem?_set_self (by simpa using hk)]
  rfl

theorem zeroAt_getD_ne (w : List ℝ) (k j : ℕ) (h : k ≠ j) :
    (zeroAt w k).getD j 0 = w.getD j 0 := by
  rw [zeroAt, List.getD_eq_getElem?_getD, List.getElem?_set_ne h,
    ← List.getD_eq_getElem?_getD]

/-- `replace=False` sampling yields exactly one distinct in-range index
per draw, each with positive weight at pick time. -/
theorem sampleNoReplace_spec (w : List ℝ) (us : List ℝ) (h : ValidDraws w us) :
    (sampleNoReplace w us).length = us.length ∧
      (sampleNoReplace w us).Nodup ∧
      (∀ i ∈ sampleNoReplace w us, i < w.length) ∧
      (∀ i ∈ sampleNoReplace w us, 0 < w.getD i 0) := by
  induction us generalizing w with
  | nil => exact ⟨rfl, List.nodup_nil, by simp [sampleNoReplace], by simp [sampleNoReplace]⟩
  | cons u us' ih =>
    obtain ⟨h0, hu, hrest⟩ := h
    have hpick := cdfPick_spec w u h0 hu
    have hrec := ih (zeroAt w (cdfPick w u)) hrest
    rw [sampleNoReplace]
    refine ⟨by simpa using hrec.1, ?_, ?_, ?_⟩
    · rw [List.nodup_cons]
      refine ⟨?_, hrec.2.1⟩
      intro hmem
      have hpos := hrec.2.2.2 _ hmem
      rw [zeroAt_getD_self w _ hpick.1] at hpos
      exact lt_irrefl 0 hpos
    · intro i hi
      rcases List.mem_cons.mp hi with rfl | hi'
      · exact hpick.1
      · have := hrec.2.2.1 i hi'
        rwa [zeroAt_length] at this
    · intro i hi
      rcases List.mem_cons.mp hi with rfl | hi'
      · exact hpick.2
      · have hpos := hrec.2.2.2 i hi'
        by_cases hik : cdfPick w u = i
        · exfalso
          rw [← hik, zeroAt_getD_self w _ hpick.1] at hpos
          exact lt_irrefl 0 hpos
        · rwa [zeroAt_getD_ne w _ _ hik] at hpos

/-- Concrete 2×2 field for the extraction scenarios: all four cells have
gradient `(3, 4)` and magnitude `5`. -/
def exM : List (List ℚ) := [[0, 3], [4, 7]]

theorem sqrtq_eval (q : ℚ) (e : ℝ) (he : 0 ≤ e) (h : (q : ℝ) = e ^ 2) :
    Real.sqrt ((q : ℚ) : ℝ) = e := by
  rw [h, Real.sqrt_sq he]

theorem exM_mag (r c : ℕ) (hr : r < 2) (hc : c < 2) : gradMag exM 2 2 r c = 5 := by
  have hq : (gradX exM 2 r c ^ 2 + gradY exM 2 r c ^ 2 : ℚ) = 25 := by
    interval_cases r <;> interval_cases c <;>
      norm_num [gradX, gradY, grad1, Mget, exM]
  rw [gradMag, hq]
  apply sqrtq_eval _ _ (by norm_num)
  push_cast
  norm_num

theorem exM_flatMag : flatMag exM 2 2 = [5, 5, 5, 5] := by
  rw [flatMag, show List.range (2 * 2) = [0, 1, 2, 3] from rfl]
  show [gradMag exM 2 2 0 0, gradMag exM 2 2 0 1, gradMag exM 2 2 1 0,
    gradMag exM 2 2 1 1] = [5, 5, 5, 5]
  rw [exM_mag 0 0 (by norm_num) (by norm_num), exM_mag 0 1 (by norm_num) (by norm_num),
    exM_mag 1 0 (by norm_num) (by norm_num), exM_mag 1 1 (by norm_num) (by norm_num)]

theorem exM_prob : probOf (flatMag exM 2 2) = [1/4, 1/4, 1/4, 1/4] := by
  rw [exM_flatMag, probOf]
  norm_num [List.sum_cons, List.sum_nil]

theorem exM_pick0 : cdfPick [(1:ℝ)/4, 1/4, 1/4, 1/4] 0 = 0 := by
  rw [cdfPick, if_pos (by norm_num)]

theorem exM_pick1 : cdfPick [(0:ℝ), 1/4, 1/4, 1/4] 0 = 1 := by
  rw [cdfPick, if_neg (by norm_num), show (0:ℝ) - 0 = 0 from by norm_num, cdfPick,
    if_pos (by norm_num)]

theorem exM_noReplace : sampleNoReplace (probOf (flatMag exM 2 2)) [0, 0] = [0, 1] := by
  rw [exM_prob]
  have e1 : sampleNoReplace [(1:ℝ)/4, 1/4, 1/4, 1/4] [0, 0] =
      cdfPick [(1:ℝ)/4, 1/4, 1/4, 1/4] 0 ::
        sampleNoReplace (zeroAt [(1:ℝ)/4, 1/4, 1/4, 1/4]
          (cdfPick [(1:ℝ)/4, 1/4, 1/4, 1/4] 0)) [0] := rfl
  rw [e1, exM_pick0, show zeroAt [(1:ℝ)/4, 1/4, 1/4, 1/4] 0 = [0, 1/4, 1/4, 1/4] from rfl]
  have e2 : sampleNoReplace [(0:ℝ), 1/4, 1/4, 1/4] [0] =
      cdfPick [(0:ℝ), 1/4, 1/4, 1/4] 0 ::
        sampleNoReplace (zeroAt [(0:ℝ), 1/4, 1/4, 1/4]
          (cdfPick [(0:ℝ), 1/4, 1/4, 1/4] 0)) [] := rfl
  rw [e2, exM_pick1]
  rfl

/-- C4, counterexample.  On the concrete field `[[0,3],[4,7]]` (uniform
gradient distribution) with two draws `[0, 0]`, the extractor (which
calls `np.random.choice` with `replace=False`) returns the two distinct
cells `[0, 1]`, whereas the spec's with-replacement sampling returns
the duplicated `[0, 0]`: the extractor can never repeat a cell. -/
theorem C4_gradient_sampling_counterexample :
    extractGradientIdx exM 2 2 [0, 0] = [0, 1] ∧
      (extractGradientIdx exM 2 2 [0, 0]).Nodup ∧
      sampleWithReplace (probOf (flatMag exM 2 2)) [0, 0] = [0, 0] ∧
      ¬ (sampleWithReplace (probOf (flatMag exM 2 2)) [0, 0]).Nodup := by
  have hwr : sampleWithReplace (probOf (flatMag exM 2 2)) [0, 0] = [0, 0] := by
    rw [exM_prob]
    have e1 : sampleWithReplace [(1:ℝ)/4, 1/4, 1/4, 1/4] [0, 0] =
        [cdfPick [(1:ℝ)/4, 1/4, 1/4, 1/4] 0, cdfPick [(1:ℝ)/4, 1/4, 1/4, 1/4] 0] := rfl
    rw [e1, exM_pick0]
  have hnr : extractGradientIdx exM 2 2 [0, 0] = [0, 1] := by
    rw [extractGradientIdx, exM_noReplace]
  refine ⟨hnr, ?_, hwr, ?_⟩
  · rw [hnr]
    decide
  · rw [hwr]
    decide

/-- C4, amended.  The gradient-weighted policy normalises the gradient
magnitudes into a probability distribution and draws the `N` cell
indices *without* replacement (`replace=False` at
`mandelbrotTSP1.py:124`): the returned indices are pairwise distinct
in-range cells, so no cell (and hence no coordinate produced from a
repeated index) can appear twice; `N` must not exceed the number of
positive-probability cells or the underlying sampler fails. -/
theorem C4_gradient_sampling_amended (M : List (List ℚ)) (rows cols : ℕ) (us : List ℝ)
    (h : ValidDraws (probOf (flatMag M rows cols)) us) :
    (extractGradientIdx M rows cols us).length = us.length ∧
      (extractGradientIdx M rows cols us).Nodup ∧
      ∀ i ∈ extractGradientIdx M rows cols us, i < rows * cols := by
  have hspec := sampleNoReplace_spec _ us h
  have hwl : (probOf (flatMag M rows cols)).length = rows * cols := by
    rw [probOf, List.length_map, flatMag, List.length_map, List.length_range]
  exact ⟨hspec.1, hspec.2.1, fun i hi => hwl ▸ hspec.2.2.1 i hi⟩

/-- Witness for `C4_gradient_sampling_amended` on the concrete field and
draw stream of the counterexample. -/
theorem C4_gradient_sampling_amended_witness :
    (extractGradientIdx exM 2 2 [0, 0]).length = 2 ∧
      (extractGradientIdx exM 2 2 [0, 0]).Nodup ∧
      ∀ i ∈ extractGradientIdx exM 2 2 [0, 0], i < 2 * 2 := by
  have hv : ValidDraws (probOf (flatMag exM 2 2)) [0, 0] := by
    rw [exM_prob]
    show (0:ℝ) ≤ 0 ∧ (0:ℝ) < ([(1:ℝ)/4, 1/4, 1/4, 1/4]).sum ∧
      ValidDraws (zeroAt [(1:ℝ)/4, 1/4, 1/4, 1/4] (cdfPick [(1:ℝ)/4, 1/4, 1/4, 1/4] 0)) [0]
    refine ⟨le_refl 0, by norm_num [List.sum_cons, List.sum_nil], ?_⟩
    rw [exM_pick0, show zeroAt [(1:ℝ)/4, 1/4, 1/4, 1/4] 0 = [0, 1/4, 1/4, 1/4] from rfl]
    show (0:ℝ) ≤ 0 ∧ (0:ℝ) < ([(0:ℝ), 1/4, 1/4, 1/4]).sum ∧
      ValidDraws (zeroAt [(0:ℝ), 1/4, 1/4, 1/4] (cdfPick [(0:ℝ), 1/4, 1/4, 1/4] 0)) []
    exact ⟨le_refl 0, by norm_num [List.sum_cons, List.sum_nil], trivial⟩
  exact C4_gradient_sampling_amended exM 2 2 [0, 0] hv

theorem nodup_map_getD (l : List ℕ) (is : List ℕ) (hl : l.Nodup) (his : is.Nodup)
    (hb : ∀ i ∈ is, i < l.length) : (is.map fun i => l.getD i 0).Nodup := by
  refine List.Nodup.map_on ?_ his
  intro a ha b hb' hfab
  have ha' := hb a ha
  have hb'' := hb b hb'
  rw [List.getD_eq_getElem?_getD, List.getElem?_eq_getElem ha',
    List.getD_eq_getElem?_getD, List.getElem?_eq_getElem hb''] at hfab
  exact (List.Nodup.getElem_inj_iff hl).mp (by simpa using hfab)

/-- C5.  Boundary policy: every cell above the threshold is a
candidate; with more than `N` candidates, `N` are chosen by uniform
subsampling without replacement (distinct candidates); with at most `N`
(but at least one) all candidates are returned and the shortfall
warning is flagged; with none, the extractor falls back to the
gradient-weighted policy and still returns exactly `N` cell indices. -/
theorem C5_boundary_policy_confirmed (M : List (List ℚ)) (rows cols : ℕ)
    (threshold : ℝ) (numPoints : ℕ) (usB usG : List ℝ) :
    (boundaryIdx M rows cols threshold ≠ [] →
      numPoints < (boundaryIdx M rows cols threshold).length →
      usB.length = numPoints →
      ValidDraws (List.replicate (boundaryIdx M rows cols threshold).length 1) usB →
      (extractBoundaryIdx M rows cols threshold numPoints usB usG).1.length = numPoints ∧
        (extractBoundaryIdx M rows cols threshold numPoints usB usG).1.Nodup ∧
        ∀ x ∈ (extractBoundaryIdx M rows cols threshold numPoints usB usG).1,
          x ∈ boundaryIdx M rows cols threshold) ∧
    (boundaryIdx M rows cols threshold ≠ [] →
      (boundaryIdx M rows cols threshold).length ≤ numPoints →
      extractBoundaryIdx M rows cols threshold numPoints usB usG =
        (boundaryIdx M rows cols threshold, true)) ∧
    (boundaryIdx M rows cols threshold = [] →
      usG.length = numPoints →
      ValidDraws (probOf (flatMag M rows cols)) usG →
      (extractBoundaryIdx M rows cols threshold numPoints usB usG).1.length =
        numPoints) := by
  refine ⟨?_, ?_, ?_⟩
  · intro hne hlt hlen hv
    rw [extractBoundaryIdx, if_neg hne, if_pos hlt]
    have hspec := sampleNoReplace_spec _ usB hv
    have hrep : (List.replicate (boundaryIdx M rows cols threshold).length (1:ℝ)).length =
        (boundaryIdx M rows cols threshold).length := List.length_replicate _ _
    have hbound : ∀ i ∈ sampleNoReplace
        (List.replicate (boundaryIdx M rows cols threshold).length 1) usB,
        i < (boundaryIdx M rows cols threshold).length := by
      intro i hi
      have := hspec.2.2.1 i hi
      rwa [hrep] at this
    have hcnd : (boundaryIdx M rows cols threshold).Nodup :=
      (List.nodup_range _).filter _
    refine ⟨by rw [List.length_map, hspec.1, hlen], ?_, ?_⟩
    · exact nodup_map_getD _ _ hcnd hspec.2.1 hbound
    · intro x hx
      obtain ⟨i, hi, rfl⟩ := List.mem_map.mp hx
      exact listGetD_mem _ _ _ (hbound i hi)
  · intro hne hle
    rw [extractBoundaryIdx, if_neg hne, if_neg (by omega)]
  · intro hemp hlen hv
    rw [extractBoundaryIdx, if_pos hemp]
    have hspec := sampleNoReplace_spec _ usG hv
    rw [extractGradientIdx]
    rw [hspec.1, hlen]

/-- Witness for `C5_boundary_policy_confirmed`: on the concrete field
`[[0,3],[4,7]]` a threshold of `10` exceeds every gradient magnitude,
so the boundary policy falls back to gradient-weighted sampling and
still returns exactly `2` cells. -/
theorem C5_boundary_policy_confirmed_witness :
    (extractBoundaryIdx exM 2 2 10 2 [0, 0] [0, 0]).1.length = 2 := by
  have hb : boundaryIdx exM 2 2 10 = [] := by
    rw [boundaryIdx, show List.range (2 * 2) = [0, 1, 2, 3] from rfl]
    have c0 : decide ((10:ℝ) < gradMag exM 2 2 (0 / 2) (0 % 2)) = false := by
      apply decide_eq_false
      show ¬ ((10:ℝ) < gradMag exM 2 2 0 0)
      rw [exM_mag 0 0 (by norm_num) (by norm_num)]
      norm_num
    have c1 : decide ((10:ℝ) < gradMag exM 2 2 (1 / 2) (1 % 2)) = false := by
      apply decide_eq_false
      show ¬ ((10:ℝ) < gradMag exM 2 2 0 1)
      rw [exM_mag 0 1 (by norm_num) (by norm_num)]
      norm_num
    have c2 : decide ((10:ℝ) < gradMag exM 2 2 (2 / 2) (2 % 2)) = false := by
      apply decide_eq_false
      show ¬ ((10:ℝ) < gradMag exM 2 2 1 0)
      rw [exM_mag 1 0 (by norm_num) (by norm_num)]
      norm_num
    have c3 : decide ((10:ℝ) < gradMag exM 2 2 (3 / 2) (3 % 2)) = false := by
      apply decide_eq_false
      show ¬ ((10:ℝ) < gradMag exM 2 2 1 1)
      rw [exM_mag 1 1 (by norm_num) (by norm_num)]
      norm_num
    rw [List.filter_cons, List.filter_cons, List.filter_cons, List.filter_cons,
      List.filter_nil, c0, c1, c2, c3]
    rfl
  have hv : ValidDraws (probOf (flatMag exM 2 2)) [0, 0] := by
    rw [exM_prob]
    show (0:ℝ) ≤ 0 ∧ (0:ℝ) < ([(1:ℝ)/4, 1/4, 1/4, 1/4]).sum ∧
      ValidDraws (zeroAt [(1:ℝ)/4, 1/4, 1/4, 1/4] (cdfPick [(1:ℝ)/4, 1/4, 1/4, 1/4] 0)) [0]
    refine ⟨le_refl 0, by norm_num [List.sum_cons, List.sum_nil], ?_⟩
    rw [exM_pick0, show zeroAt [(1:ℝ)/4, 1/4, 1/4, 1/4] 0 = [0, 1/4, 1/4, 1/4] from rfl]
    show (0:ℝ) ≤ 0 ∧ (0:ℝ) < ([(0:ℝ), 1/4, 1/4, 1/4]).sum ∧
      ValidDraws (zeroAt [(0:ℝ), 1/4, 1/4, 1/4] (cdfPick [(0:ℝ), 1/4, 1/4, 1/4] 0)) []
    exact ⟨le_refl 0, by norm_num [List.sum_cons, List.sum_nil], trivial⟩
  exact (C5_boundary_policy_confirmed exM 2 2 10 2 [0, 0] [0, 0]).2.2 hb rfl hv

/-!
Attribute assembly (`create_gradient_line_plot`): per-segment colors in
position mode (`np.linspace(0, 1, len(segments))`) or iteration mode
(`ordered_iterations[:-1] / max`), the latter modelled with the double
division semantics (`0/0 = NaN`).
-/

/-- `np.linspace(0, 1, k)` over the reals. -/
noncomputable def linspace01 (k : ℕ) : List ℝ :=
  if k ≤ 1 then (List.range k).map fun _ => 0
  else (List.range k).map fun j : ℕ => (j : ℝ) / ((k : ℝ) - 1)

/-- `ndarray.max()` on a nonempty array (junk on empty, where numpy
raises). -/
noncomputable def maxList (l : List ℝ) : ℝ := l.foldl max (l.headD 0)

/-- IEEE division for the color normalisation: `0/0 = NaN`,
`±x/0 = ±inf`, else finite. -/
noncomputable def fdivF (a b : ℝ) : FVal :=
  if b = 0 then (if a = 0 then FVal.nan else if 0 < a then FVal.pinf else FVal.ninf)
  else FVal.fin (a / b)

/-- Iteration-mode colors: `colors = ordered_iterations[:-1]` divided by
`colors.max()`. -/
noncomputable def colorsIteration (iters : List ℝ) (path : List ℕ) : List FVal :=
  ((path.map fun k => iters.getD k 0).dropLast).map fun v =>
    fdivF v (maxList ((path.map fun k => iters.getD k 0).dropLast))

/-- An emitted attribute lies in `[0, 1]` (in particular it is a finite
number, not `NaN` or an infinity). -/
def inUnit (f : FVal) : Prop := ∃ x : ℝ, f = FVal.fin x ∧ 0 ≤ x ∧ x ≤ 1

theorem foldl_max_init (l : List ℝ) (a : ℝ) : a ≤ l.foldl max a := by
  induction l generalizing a with
  | nil => exact le_refl a
  | cons x t ih => exact le_trans (le_max_left a x) (ih (max a x))

theorem foldl_max_mem (l : List ℝ) (a x : ℝ) (h : x ∈ l) : x ≤ l.foldl max a := by
  induction l generalizing a with
  | nil => simp at h
  | cons y t ih =>
    rcases List.mem_cons.mp h with rfl | h'
    · exact le_trans (le_max_right a x) (foldl_max_init t (max a x))
    · exact ih (max a y) h'

theorem le_maxList (l : List ℝ) (x : ℝ) (h : x ∈ l) : x ≤ maxList l :=
  foldl_max_mem l _ x h

/-- C8, counterexample.  With candidate iteration values `[0, 0, 0]`
(three points that escape immediately) and tour `[0, 1, 2]` in
iteration mode, `colors.max()` is `0` and every emitted attribute is
`0/0 = NaN`, which does not lie in `[0, 1]`. -/
theorem C8_attribute_range_counterexample :
    colorsIteration [0, 0, 0] [0, 1, 2] = [FVal.nan, FVal.nan] ∧ ¬ inUnit FVal.nan := by
  constructor
  · have h1 : (([0, 1, 2].map fun k => ([0, 0, 0] : List ℝ).getD k 0)).dropLast =
        [(0:ℝ), 0] := rfl
    have h2 : maxList [(0:ℝ), 0] = 0 := by
      rw [maxList]
      show max (max 0 0) 0 = 0
      simp
    rw [colorsIteration, h1, h2]
    show [fdivF 0 0, fdivF 0 0] = [FVal.nan, FVal.nan]
    rw [fdivF, if_pos rfl, if_pos rfl]
  · rintro ⟨x, hx, _⟩
    exact FVal.noConfusion hx

/-- C8, amended.  When the iteration values are nonnegative and the
maximum over the emitted slice (`ordered_iterations[:-1]`, the values
divided by their own maximum — not the maximum over all candidates) is
positive, every iteration-mode attribute lies in `[0, 1]`; position-mode
attributes (`np.linspace(0, 1, ·)`) always lie in `[0, 1]`.  When every
emitted iteration value is zero the attributes are `NaN` instead. -/
theorem C8_attribute_range_amended (iters : List ℝ) (path : List ℕ) (k : ℕ)
    (hnn : ∀ v ∈ iters, 0 ≤ v)
    (hmax : 0 < maxList ((path.map fun j => iters.getD j 0).dropLast)) :
    (∀ c ∈ colorsIteration iters path, inUnit c) ∧
      ∀ c ∈ linspace01 k, 0 ≤ c ∧ c ≤ 1 := by
  constructor
  · intro c hc
    rw [colorsIteration] at hc
    obtain ⟨v, hv, rfl⟩ := List.mem_map.mp hc
    have hvnn : 0 ≤ v := by
      have hv' : v ∈ (path.map fun j => iters.getD j 0) :=
        (List.dropLast_sublist _).mem hv
      obtain ⟨j, _, rfl⟩ := List.mem_map.mp hv'
      rcases Nat.lt_or_ge j iters.length with hj | hj
      · exact hnn _ (listGetD_mem _ _ _ hj)
      · rw [List.getD_eq_getElem?_getD, List.getElem?_eq_none (by omega)]
        exact le_refl 0
    have hvle : v ≤ maxList ((path.map fun j => iters.getD j 0).dropLast) :=
      le_maxList _ v hv
    rw [fdivF, if_neg (ne_of_gt hmax)]
    exact ⟨_, rfl, div_nonneg hvnn (le_of_lt hmax), (div_le_one hmax).mpr hvle⟩
  · intro c hc
    rw [linspace01] at hc
    rcases le_or_lt k 1 with hk | hk
    · rw [if_pos hk] at hc
      rw [List.mem_map] at hc
      obtain ⟨j, _, hje⟩ := hc
      rw [← hje]
      norm_num
    · rw [if_neg (by omega)] at hc
      rw [List.mem_map] at hc
      obtain ⟨j, hj, hje⟩ := hc
      rw [List.mem_range] at hj
      rw [← hje]
      have hjk : j ≤ k - 1 := by omega
      have hk1 : (0 : ℝ) < (k : ℝ) - 1 := by
        have : (2 : ℝ) ≤ (k : ℝ) := by exact_mod_cast hk
        linarith
      constructor
      · positivity
      · rw [div_le_one hk1]
        have : (j : ℝ) ≤ (k : ℝ) - 1 := by
          have h2 : ((j : ℕ) : ℝ) ≤ ((k - 1 : ℕ) : ℝ) := by exact_mod_cast hjk
          have h3 : ((k - 1 : ℕ) : ℝ) = (k : ℝ) - 1 := by
            have : 1 ≤ k := by omega
            push_cast [this]
            ring
          linarith [h2, h3.le]
        exact this

/-- Witness for `C8_attribute_range_amended` with iteration values
`[1, 2, 5]`, tour `[0, 1, 2]` and three position segments. -/
theorem C8_attribute_range_amended_witness :
    (∀ c ∈ colorsIteration [1, 2, 5] [0, 1, 2], inUnit c) ∧
      ∀ c ∈ linspace01 3, 0 ≤ c ∧ c ≤ 1 := by
  refine C8_attribute_range_amended [1, 2, 5] [0, 1, 2] 3 ?_ ?_
  · intro v hv
    rcases List.mem_cons.mp hv with rfl | hv'
    · norm_num
    rcases List.mem_cons.mp hv' with rfl | hv''
    · norm_num
    rcases List.mem_cons.mp hv'' with rfl | hv'''
    · norm_num
    · simp at hv'''
  · have h1 : (([0, 1, 2].map fun j => ([1, 2, 5] : List ℝ).getD j 0)).dropLast =
        [(1:ℝ), 2] := rfl
    rw [h1]
    have h2 : maxList [(1:ℝ), 2] = 2 := by
      rw [maxList]
      show max (max 1 1) 2 = 2
      simp
    rw [h2]
    norm_num

/-!
Pipeline entry (`main`): the module-level constants are read and
`calculate_mandelbrot` is called directly; there is no validation code
and no `InvalidConfiguration` path anywhere in the file.
-/

/-- The configuration `main` consumes (the module-level constants of
`mandelbrotTSP1.py` that feed `calculate_mandelbrot`). -/
structure Config where
  width : ℕ
  height : ℕ
  xmin : ℚ
  xmax : ℚ
  ymin : ℚ
  ymax : ℚ
  maxIter : ℕ

/-- The first thing `main` executes: `calculate_mandelbrot` on the
configured parameters, unconditionally.  It is a total function — the
source has no check and no error channel before (or in) it. -/
def mainFieldStage (cfg : Config) : List (List ℕ) :=
  mandelbrotGrid cfg.width cfg.height cfg.xmin cfg.xmax cfg.ymin cfg.ymax cfg.maxIter

theorem linspace_length (a b : ℚ) (n : ℕ) : (linspace a b n).length = n := by
  rw [linspace]
  split <;> simp

/-- C9, counterexample.  The invalid configuration `width = 0`,
`max_iter = 0` is not rejected: `main` proceeds straight into the field
computation, which silently returns a degenerate `2 × 0` grid. -/
theorem C9_validation_counterexample :
    mainFieldStage ⟨0, 2, 0, 1, 0, 1, 0⟩ = [[], []] := rfl

/-- C9, amended.  No configuration parameter is validated at pipeline
entry: `main` starts the field computation unconditionally for every
configuration (including invalid ones), and the computed grid merely
inherits the configured shape — `height` rows of `width` cells each; in
particular width `0` with height `2` yields `[[], []]` instead of an
`InvalidConfiguration` error. -/
theorem C9_validation_amended :
    (∀ cfg : Config, (mainFieldStage cfg).length = cfg.height ∧
      ∀ row ∈ mainFieldStage cfg, row.length = cfg.width) ∧
    mainFieldStage ⟨0, 2, 0, 1, 0, 1, 0⟩ = [[], []] := by
  constructor
  · intro cfg
    constructor
    · rw [mainFieldStage, mandelbrotGrid, List.length_map, linspace_length]
    · intro row hrow
      rw [mainFieldStage, mandelbrotGrid] at hrow
      obtain ⟨y, _, rfl⟩ := List.mem_map.mp hrow
      rw [List.length_map, linspace_length]
  · rfl
